import Mathlib

/-!
Verification of the Huffman encoder in `huffnpuff.py`.

The embedding is a direct shallow translation of the Python source:
* Python dicts become insertion-ordered association lists (`dictGet` / `dictSet`).
* `Node` mirrors the Python class: an optional character, a frequency and two
  optional children.
* The `heapq` module functions (`heappush`, `heappop` and their internal sift
  routines) are translated statement by statement from CPython's `heapq.py`,
  comparing nodes with `Node.__lt__` (i.e. by frequency).
* The `HuffmanEncoder` methods become pure functions threading an explicit
  `EncoderState` (the `self.heap`, `self.codes`, `self.reverse_codes` and
  `self.padding` attributes).  A Python exception (`IndexError` from popping an
  empty heap, `KeyError` from a missing code) is modelled as `none`.
-/

/-- Python dict lookup (`d[k]` / `d.get(k)`): first binding of the key wins. -/
def dictGet {κ ν : Type} [DecidableEq κ] (d : List (κ × ν)) (k : κ) : Option ν :=
  match d with
  | [] => none
  | (k', v) :: rest => if k' = k then some v else dictGet rest k

/-- Python dict assignment (`d[k] = v`): updates the existing binding in place,
or appends a new binding at the end (Python dicts preserve insertion order). -/
def dictSet {κ ν : Type} [DecidableEq κ] (d : List (κ × ν)) (k : κ) (v : ν) :
    List (κ × ν) :=
  match d with
  | [] => [(k, v)]
  | (k', v') :: rest => if k' = k then (k', v) :: rest else (k', v') :: dictSet rest k v

/-- The `Node` class of `huffnpuff.py`: a character (`None` on internal nodes),
a frequency, and optional left/right children. -/
inductive Node : Type where
  | mk (char : Option Char) (freq : Nat) (left : Option Node) (right : Option Node)

mutual

/-- Decidable equality on `Node` (the `deriving` handler does not support this
nested inductive). -/
def Node.decEq : (a b : Node) → Decidable (a = b)
  | .mk c1 f1 l1 r1, .mk c2 f2 l2 r2 =>
    if hc : c1 = c2 then
      if hf : f1 = f2 then
        match Node.decEqO l1 l2 with
        | isTrue hl =>
          match Node.decEqO r1 r2 with
          | isTrue hr => isTrue (by rw [hc, hf, hl, hr])
          | isFalse hr => isFalse (by intro h; injection h; exact hr (by assumption))
        | isFalse hl => isFalse (by intro h; injection h; exact hl (by assumption))
      else isFalse (by intro h; injection h; exact hf (by assumption))
    else isFalse (by intro h; injection h; exact hc (by assumption))

/-- Decidable equality on `Option Node`. -/
def Node.decEqO : (a b : Option Node) → Decidable (a = b)
  | none, none => isTrue rfl
  | none, some _ => isFalse (fun h => Option.noConfusion h)
  | some _, none => isFalse (fun h => Option.noConfusion h)
  | some a, some b =>
    match Node.decEq a b with
    | isTrue h => isTrue (by rw [h])
    | isFalse h => isFalse (by intro he; injection he; exact h (by assumption))

end

instance : DecidableEq Node := Node.decEq

/-- `self.char`. -/
def Node.char : Node → Option Char
  | .mk c _ _ _ => c

/-- `self.freq`. -/
def Node.freq : Node → Nat
  | .mk _ f _ _ => f

/-- `self.left`. -/
def Node.left : Node → Option Node
  | .mk _ _ l _ => l

/-- `self.right`. -/
def Node.right : Node → Option Node
  | .mk _ _ _ r => r

instance : Inhabited Node := ⟨Node.mk none 0 none none⟩

/-- List indexing `heap[i]` (all uses in the source are in bounds). -/
def getN (l : List Node) (i : Nat) : Node :=
  l.getD i default

/-- The loop of CPython `heapq._siftdown(heap, startpos, pos)` with explicit
fuel; `pos` itself is always enough fuel since the position strictly decreases
(`siftdownGo_fuel` below), and with fuel `0` we have `pos = 0`, where the loop
guard fails anyway. -/
def siftdownGo : Nat → List Node → Nat → Nat → Node → List Node
  | 0, heap, _, pos, newitem => heap.set pos newitem
  | fuel + 1, heap, startpos, pos, newitem =>
    if startpos < pos then
      if newitem.freq < (getN heap ((pos - 1) / 2)).freq then
        siftdownGo fuel (heap.set pos (getN heap ((pos - 1) / 2))) startpos
          ((pos - 1) / 2) newitem
      else
        heap.set pos newitem
    else
      heap.set pos newitem

/-- CPython `heapq._siftdown(heap, startpos, pos)`: bubble `newitem` up towards
the root while it is smaller than its parent (`Node.__lt__` compares `freq`). -/
def siftdownLoop (heap : List Node) (startpos pos : Nat) (newitem : Node) :
    List Node :=
  siftdownGo pos heap startpos pos newitem

/-- CPython `heapq.heappush(heap, item)`: append, then sift down from the new
last position. -/
def heappush (heap : List Node) (item : Node) : List Node :=
  siftdownLoop (heap ++ [item]) 0 heap.length item

/-- The loop of CPython `heapq._siftup` with explicit fuel; `endpos - pos` is
always enough fuel since the position strictly increases (`siftupGo_fuel`
below), and with fuel `0` we have `endpos ≤ pos`, where the loop guard fails
anyway. -/
def siftupGo : Nat → List Node → Nat → Nat → List Node × Nat
  | 0, heap, pos, _ => (heap, pos)
  | fuel + 1, heap, pos, endpos =>
    if 2 * pos + 1 < endpos then
      siftupGo fuel
        (heap.set pos (getN heap
          (if 2 * pos + 2 < endpos ∧
              ¬ (getN heap (2 * pos + 1)).freq < (getN heap (2 * pos + 2)).freq
            then 2 * pos + 2 else 2 * pos + 1)))
        (if 2 * pos + 2 < endpos ∧
            ¬ (getN heap (2 * pos + 1)).freq < (getN heap (2 * pos + 2)).freq
          then 2 * pos + 2 else 2 * pos + 1)
        endpos
    else
      (heap, pos)

/-- The loop of CPython `heapq._siftup`: move the smaller child up into the
hole until reaching a leaf position; returns the array and the final hole. -/
def siftupLoop (heap : List Node) (pos endpos : Nat) : List Node × Nat :=
  siftupGo (endpos - pos) heap pos endpos

/-- CPython `heapq._siftup(heap, pos)`: save the item at `pos`, walk the hole
down to a leaf, place the item there and sift it back up. -/
def siftup (heap : List Node) (pos : Nat) : List Node :=
  let newitem := getN heap pos
  let p := siftupLoop heap pos heap.length
  siftdownLoop p.1 pos p.2 newitem

/-- CPython `heapq.heappop(heap)`: `none` models the `IndexError` raised when
popping from an empty heap. -/
def heappop (heap : List Node) : Option (Node × List Node) :=
  match heap.getLast? with
  | none => none
  | some lastelt =>
    let rest := heap.dropLast
    if rest = [] then
      some (lastelt, rest)
    else
      let returnitem := getN rest 0
      some (returnitem, siftup (rest.set 0 lastelt) 0)

/-- The mutable attributes set up in `HuffmanEncoder.__init__`. -/
structure EncoderState where
  heap : List Node
  codes : List (Char × List Char)
  reverseCodes : List (List Char × Char)
  padding : Nat
deriving DecidableEq

/-- A freshly constructed `HuffmanEncoder()`. -/
def initState : EncoderState :=
  { heap := [], codes := [], reverseCodes := [], padding := 0 }

/-- `HuffmanEncoder.make_frequency_dict`. -/
def makeFrequencyDict (text : List Char) : List (Char × Nat) :=
  text.foldl (fun d c => dictSet d c ((dictGet d c).getD 0 + 1)) []

/-- `HuffmanEncoder.make_heap`: push a leaf node for every dict entry, in dict
(insertion) order, onto the existing heap. -/
def makeHeap (heap : List Node) (freqDict : List (Char × Nat)) : List Node :=
  freqDict.foldl (fun h cf => heappush h (Node.mk (some cf.1) cf.2 none none)) heap

/-- The `while len(self.heap) > 1` loop of `HuffmanEncoder.merge_nodes`, with
explicit fuel.  Each iteration shrinks the heap by one, so `heap.length` fuel
always suffices (`mergeNodesGo_fuel` below makes this precise). -/
def mergeNodesGo : Nat → List Node → List Node
  | 0, heap => heap
  | fuel + 1, heap =>
    if 1 < heap.length then
      match heappop heap with
      | some (node1, h1) =>
        match heappop h1 with
        | some (node2, h2) =>
          mergeNodesGo fuel
            (heappush h2 (Node.mk none (node1.freq + node2.freq) (some node1) (some node2)))
        | none => h1
      | none => heap
    else
      heap

/-- `HuffmanEncoder.merge_nodes`. -/
def mergeNodes (heap : List Node) : List Node :=
  mergeNodesGo heap.length heap

/-- The recursion of `HuffmanEncoder.make_codes_helper` on a node that is not
`None`, threading the pair `(self.codes, self.reverse_codes)`.  A recursive
call on a `None` child returns the state unchanged in the source, so the four
child-shape cases of an internal node are spelled out here (this keeps the
recursion structural). -/
def makeCodesHelperN :
    Node → List Char → List (Char × List Char) × List (List Char × Char) →
    List (Char × List Char) × List (List Char × Char)
  | Node.mk (some c) _ _ _, currentCode, st =>
    (dictSet st.1 c currentCode, dictSet st.2 currentCode c)
  | Node.mk none _ none none, _, st => st
  | Node.mk none _ (some l) none, currentCode, st =>
    makeCodesHelperN l (currentCode ++ ['0']) st
  | Node.mk none _ none (some r), currentCode, st =>
    makeCodesHelperN r (currentCode ++ ['1']) st
  | Node.mk none _ (some l) (some r), currentCode, st =>
    makeCodesHelperN r (currentCode ++ ['1'])
      (makeCodesHelperN l (currentCode ++ ['0']) st)

/-- `HuffmanEncoder.make_codes_helper`. -/
def makeCodesHelper :
    Option Node → List Char → List (Char × List Char) × List (List Char × Char) →
    List (Char × List Char) × List (List Char × Char)
  | none, _, st => st
  | some n, currentCode, st => makeCodesHelperN n currentCode st

/-- `HuffmanEncoder.make_codes`: pop the root (an `IndexError`, i.e. `none`,
on an empty heap) and assign codes starting from the empty string. -/
def makeCodes (st : EncoderState) : Option EncoderState :=
  match heappop st.heap with
  | none => none
  | some (root, rest) =>
    let cs := makeCodesHelper (some root) [] (st.codes, st.reverseCodes)
    some { st with heap := rest, codes := cs.1, reverseCodes := cs.2 }

/-- `HuffmanEncoder.get_encoded_text`: concatenate each character's code in
input order; `none` models the `KeyError` on a character missing from
`self.codes`. -/
def getEncodedText (codes : List (Char × List Char)) : List Char → Option (List Char)
  | [] => some []
  | c :: rest =>
    match dictGet codes c with
    | none => none
    | some code => (getEncodedText codes rest).map (fun r => code ++ r)

/-- `HuffmanEncoder.pad_encoded_text`: append `8 - len % 8` zero characters. -/
def padEncodedText (encodedText : List Char) : List Char × Nat :=
  let padding := 8 - encodedText.length % 8
  (encodedText ++ List.replicate padding '0', padding)

/-- `int(byte, 2)` on a chunk of '0'/'1' characters (most significant first). -/
def bitsToNat (bits : List Char) : Nat :=
  bits.foldl (fun acc c => 2 * acc + (if c = '1' then 1 else 0)) 0

/-- The byte-packing loop of `HuffmanEncoder.compress` with explicit fuel;
`l.length` is always enough fuel since each chunk drops eight characters, and
with fuel `0` the list is empty, where the loop stops anyway. -/
def toBytesGo : Nat → List Char → List Nat
  | 0, _ => []
  | fuel + 1, l =>
    if l = [] then []
    else bitsToNat (l.take 8) :: toBytesGo fuel (l.drop 8)

/-- The byte-packing loop of `HuffmanEncoder.compress`: successive 8-character
chunks of the padded bit string, each converted with `int(byte, 2)`. -/
def toBytes (l : List Char) : List Nat :=
  toBytesGo l.length l

/-- The pure pipeline of `HuffmanEncoder.compress` (file I/O stripped): runs
the stages on the given encoder state and returns the final state together
with the written byte sequence (padding header byte followed by the packed
bytes).  `none` models an uncaught exception. -/
def compressFrom (st : EncoderState) (text : List Char) :
    Option (EncoderState × List Nat) :=
  let freqDict := makeFrequencyDict text
  let st1 := { st with heap := makeHeap st.heap freqDict }
  let st2 := { st1 with heap := mergeNodes st1.heap }
  match makeCodes st2 with
  | none => none
  | some st3 =>
    match getEncodedText st3.codes text with
    | none => none
    | some encodedText =>
      let pp := padEncodedText encodedText
      let st4 := { st3 with padding := pp.2 }
      some (st4, pp.2 :: toBytes pp.1)

/-- Structural well-formedness of the trees this program builds: a leaf holds
a character and no children; an internal node holds no character, exactly two
children, and the sum of their frequencies. -/
inductive WFTree : Node → Prop where
  | leaf (c : Char) (f : Nat) : WFTree (Node.mk (some c) f none none)
  | node (l r : Node) : WFTree l → WFTree r →
      WFTree (Node.mk none (l.freq + r.freq) (some l) (some r))

/-- Characters stored at the nodes where `make_codes_helper` stops (left to
right): the node's own character if it has one, otherwise the characters of
both subtrees. -/
def leafCharsO : Option Node → List Char
  | none => []
  | some (Node.mk (some c) _ _ _) => [c]
  | some (Node.mk none _ l r) => leafCharsO l ++ leafCharsO r

/-- `leafCharsO` of a single node. -/
def leafCharsN (n : Node) : List Char :=
  leafCharsO (some n)

/-- All leaf characters stored anywhere in a heap. -/
def heapChars (heap : List Node) : List Char :=
  (heap.map leafCharsN).flatten

/-- The binary-heap shape invariant of CPython's `heapq` ordered by `freq`:
every non-root entry is at least its parent. -/
def heapInv (l : List Node) : Prop :=
  ∀ i, 0 < i → i < l.length → (getN l ((i - 1) / 2)).freq ≤ (getN l i).freq

/-- Sum of the counts stored in a frequency dictionary. -/
def sumVals (d : List (Char × Nat)) : Nat :=
  (d.map Prod.snd).sum

/-- Precondition of the `_siftdown` bubble-up loop: with `item` written into
the hole at `pos`, the heap property holds at every edge not pointing into
`pos`, and additionally the parent of the hole is at most every child of the
hole (the "skip over the hole" condition). -/
def sdInv (l : List Node) (pos : Nat) (item : Node) : Prop :=
  (∀ i, 0 < i → i < l.length → i ≠ pos →
    (getN (l.set pos item) ((i - 1) / 2)).freq ≤ (getN (l.set pos item) i).freq) ∧
  (∀ c, c < l.length → (c - 1) / 2 = pos → 0 < pos →
    (getN l ((pos - 1) / 2)).freq ≤ (getN l c).freq)

/-- Precondition of the `_siftup` walk-down loop: the hole at `pos` has
arbitrary content, the heap property holds at every edge touching neither
endpoint of the hole, and the parent of the hole is at most every child of
the hole. -/
def suInv (l : List Node) (pos : Nat) : Prop :=
  (∀ i, 0 < i → i < l.length → i ≠ pos → (i - 1) / 2 ≠ pos →
    (getN l ((i - 1) / 2)).freq ≤ (getN l i).freq) ∧
  (∀ c, c < l.length → (c - 1) / 2 = pos → 0 < pos →
    (getN l ((pos - 1) / 2)).freq ≤ (getN l c).freq)

/-! ### Basic facts about list indexing and updates -/

theorem getN_cons_succ (a : Node) (l : List Node) (i : Nat) :
    getN (a :: l) (i + 1) = getN l i := rfl

theorem getN_set_self : ∀ (l : List Node) (i : Nat) (a : Node), i < l.length →
    getN (l.set i a) i = a := by
  intro l
  induction l with
  | nil => intro i a h; simp at h
  | cons x xs ih =>
    intro i a h
    cases i with
    | zero => rfl
    | succ j =>
      simp only [List.set_cons_succ, getN_cons_succ]
      exact ih j a (by simpa using h)

theorem getN_set_ne : ∀ (l : List Node) (i j : Nat) (a : Node), i ≠ j →
    getN (l.set i a) j = getN l j := by
  intro l
  induction l with
  | nil => intro i j a _; simp [List.set]
  | cons x xs ih =>
    intro i j a hij
    cases i with
    | zero =>
      cases j with
      | zero => exact absurd rfl hij
      | succ j' => rfl
    | succ i' =>
      cases j with
      | zero => rfl
      | succ j' =>
        simp only [List.set_cons_succ, getN_cons_succ]
        exact ih i' j' a (by omega)

theorem set_getN_self : ∀ (l : List Node) (i : Nat), l.set i (getN l i) = l := by
  intro l
  induction l with
  | nil => intro i; rfl
  | cons x xs ih =>
    intro i
    cases i with
    | zero => rfl
    | succ j => simp only [List.set_cons_succ, getN_cons_succ]; rw [ih j]

theorem getN_append_left : ∀ (l1 l2 : List Node) (i : Nat), i < l1.length →
    getN (l1 ++ l2) i = getN l1 i := by
  intro l1
  induction l1 with
  | nil => intro l2 i h; simp at h
  | cons x xs ih =>
    intro l2 i h
    cases i with
    | zero => rfl
    | succ j =>
      simp only [List.cons_append, getN_cons_succ]
      exact ih l2 j (by simpa using h)

theorem getN_snoc_self : ∀ (l : List Node) (x : Node), getN (l ++ [x]) l.length = x := by
  intro l
  induction l with
  | nil => intro x; rfl
  | cons a as ih => intro x; simpa [getN_cons_succ] using ih x

theorem getN_mem : ∀ (l : List Node) (i : Nat), i < l.length → getN l i ∈ l := by
  intro l
  induction l with
  | nil => intro i h; simp at h
  | cons x xs ih =>
    intro i h
    cases i with
    | zero => exact List.mem_cons_self x xs
    | succ j => exact List.mem_cons_of_mem x (ih j (by simpa using h))

theorem mem_getN : ∀ (l : List Node) (x : Node), x ∈ l →
    ∃ i, i < l.length ∧ getN l i = x := by
  intro l
  induction l with
  | nil => intro x h; simp at h
  | cons a as ih =>
    intro x h
    rcases List.mem_cons.mp h with h | h
    · exact ⟨0, by simp, h.symm⟩
    · obtain ⟨i, hi, he⟩ := ih x h
      exact ⟨i + 1, by simpa using hi, he⟩

theorem getN_dropLast (l : List Node) (i : Nat) (h : i + 1 < l.length) :
    getN l.dropLast i = getN l i := by
  have hne : l ≠ [] := by
    intro he; rw [he] at h; simp at h
  conv_rhs => rw [← List.dropLast_append_getLast hne]
  rw [getN_append_left]
  simp only [List.length_dropLast]
  omega

/-! ### Unfolding equations for the fuelled sift loops -/

theorem siftdownGo_fuel :
    ∀ (pos f1 f2 : Nat) (heap : List Node) (s : Nat) (item : Node),
      pos ≤ f1 → pos ≤ f2 →
      siftdownGo f1 heap s pos item = siftdownGo f2 heap s pos item := by
  intro pos
  induction pos using Nat.strong_induction_on with
  | _ pos ih =>
    intro f1 f2 heap s item h1 h2
    cases f1 with
    | zero =>
      cases f2 with
      | zero => rfl
      | succ b =>
        have hp : pos = 0 := by omega
        subst hp
        simp only [siftdownGo]
        rw [if_neg (by omega : ¬ s < 0)]
    | succ a =>
      cases f2 with
      | zero =>
        have hp : pos = 0 := by omega
        subst hp
        simp only [siftdownGo]
        rw [if_neg (by omega : ¬ s < 0)]
      | succ b =>
        simp only [siftdownGo]
        by_cases h : s < pos
        · rw [if_pos h, if_pos h]
          by_cases hlt : item.freq < (getN heap ((pos - 1) / 2)).freq
          · rw [if_pos hlt, if_pos hlt]
            exact ih ((pos - 1) / 2) (by omega) a b _ s item (by omega) (by omega)
          · rw [if_neg hlt, if_neg hlt]
        · rw [if_neg h, if_neg h]

theorem siftdownLoop_eq (heap : List Node) (s pos : Nat) (item : Node) :
    siftdownLoop heap s pos item =
      if s < pos then
        if item.freq < (getN heap ((pos - 1) / 2)).freq then
          siftdownLoop (heap.set pos (getN heap ((pos - 1) / 2))) s ((pos - 1) / 2) item
        else heap.set pos item
      else heap.set pos item := by
  rw [siftdownLoop, siftdownLoop]
  cases pos with
  | zero =>
    simp only [siftdownGo]
    rw [if_neg (by omega : ¬ s < 0)]
  | succ p =>
    simp only [siftdownGo]
    by_cases h : s < p + 1
    · rw [if_pos h, if_pos h]
      by_cases hlt : item.freq < (getN heap ((p + 1 - 1) / 2)).freq
      · rw [if_pos hlt, if_pos hlt]
        exact siftdownGo_fuel ((p + 1 - 1) / 2) p ((p + 1 - 1) / 2) _ s item
          (by omega) (by omega)
      · rw [if_neg hlt, if_neg hlt]
    · rw [if_neg h, if_neg h]

theorem siftupGo_fuel :
    ∀ (k f1 f2 : Nat) (heap : List Node) (pos endpos : Nat),
      endpos - pos ≤ k → endpos - pos ≤ f1 → endpos - pos ≤ f2 →
      siftupGo f1 heap pos endpos = siftupGo f2 heap pos endpos := by
  intro k
  induction k with
  | zero =>
    intro f1 f2 heap pos endpos hk h1 h2
    have hng : ¬ 2 * pos + 1 < endpos := by omega
    cases f1 with
    | zero =>
      cases f2 with
      | zero => rfl
      | succ b => simp only [siftupGo]; rw [if_neg hng]
    | succ a =>
      cases f2 with
      | zero => simp only [siftupGo]; rw [if_neg hng]
      | succ b => simp only [siftupGo]; rw [if_neg hng, if_neg hng]
  | succ k ih =>
    intro f1 f2 heap pos endpos hk h1 h2
    by_cases hng : 2 * pos + 1 < endpos
    · obtain ⟨a, rfl⟩ : ∃ a, f1 = a + 1 := ⟨f1 - 1, by omega⟩
      obtain ⟨b, rfl⟩ : ∃ b, f2 = b + 1 := ⟨f2 - 1, by omega⟩
      simp only [siftupGo]
      rw [if_pos hng, if_pos hng]
      by_cases hc : 2 * pos + 2 < endpos ∧
          ¬ (getN heap (2 * pos + 1)).freq < (getN heap (2 * pos + 2)).freq
      · rw [if_pos hc]
        exact ih a b _ (2 * pos + 2) endpos (by omega) (by omega) (by omega)
      · rw [if_neg hc]
        exact ih a b _ (2 * pos + 1) endpos (by omega) (by omega) (by omega)
    · cases f1 with
      | zero =>
        cases f2 with
        | zero => rfl
        | succ b => simp only [siftupGo]; rw [if_neg hng]
      | succ a =>
        cases f2 with
        | zero => simp only [siftupGo]; rw [if_neg hng]
        | succ b => simp only [siftupGo]; rw [if_neg hng, if_neg hng]

theorem siftupLoop_eq (heap : List Node) (pos endpos : Nat) :
    siftupLoop heap pos endpos =
      if 2 * pos + 1 < endpos then
        siftupLoop
          (heap.set pos (getN heap
            (if 2 * pos + 2 < endpos ∧
                ¬ (getN heap (2 * pos + 1)).freq < (getN heap (2 * pos + 2)).freq
              then 2 * pos + 2 else 2 * pos + 1)))
          (if 2 * pos + 2 < endpos ∧
              ¬ (getN heap (2 * pos + 1)).freq < (getN heap (2 * pos + 2)).freq
            then 2 * pos + 2 else 2 * pos + 1)
          endpos
      else (heap, pos) := by
  rw [siftupLoop, siftupLoop]
  by_cases hng : 2 * pos + 1 < endpos
  · obtain ⟨a, ha⟩ : ∃ a, endpos - pos = a + 1 := ⟨endpos - pos - 1, by omega⟩
    rw [ha]
    simp only [siftupGo]
    rw [if_pos hng, if_pos hng]
    by_cases hc : 2 * pos + 2 < endpos ∧
        ¬ (getN heap (2 * pos + 1)).freq < (getN heap (2 * pos + 2)).freq
    · rw [if_pos hc]
      exact siftupGo_fuel (endpos - (2 * pos + 2)) a (endpos - (2 * pos + 2)) _
        (2 * pos + 2) endpos (by omega) (by omega) (by omega)
    · rw [if_neg hc]
      exact siftupGo_fuel (endpos - (2 * pos + 1)) a (endpos - (2 * pos + 1)) _
        (2 * pos + 1) endpos (by omega) (by omega) (by omega)
  · rw [if_neg hng]
    cases he : endpos - pos with
    | zero => rfl
    | succ b =>
      simp only [siftupGo]
      rw [if_neg hng]

/-! ### Length preservation of the heap operations -/

theorem siftdownLoop_length (item : Node) :
    ∀ (pos : Nat) (l : List Node) (s : Nat),
      (siftdownLoop l s pos item).length = l.length := by
  intro pos
  induction pos using Nat.strong_induction_on with
  | _ pos ih =>
    intro l s
    rw [siftdownLoop_eq]
    by_cases h : s < pos
    · rw [if_pos h]
      by_cases hlt : item.freq < (getN l ((pos - 1) / 2)).freq
      · rw [if_pos hlt]
        rw [ih ((pos - 1) / 2) (by omega)]
        simp
      · rw [if_neg hlt]; simp
    · rw [if_neg h]; simp

theorem heappush_length (l : List Node) (x : Node) :
    (heappush l x).length = l.length + 1 := by
  rw [heappush, siftdownLoop_length]
  simp

theorem siftupLoop_length :
    ∀ (k pos : Nat) (l : List Node) (endpos : Nat), endpos - pos ≤ k →
      (siftupLoop l pos endpos).1.length = l.length := by
  intro k
  induction k with
  | zero =>
    intro pos l endpos hk
    rw [siftupLoop_eq]
    have h2 : ¬ 2 * pos + 1 < endpos := by omega
    rw [if_neg h2]
  | succ k ih =>
    intro pos l endpos hk
    rw [siftupLoop_eq]
    by_cases h : 2 * pos + 1 < endpos
    · rw [if_pos h]
      split
      · rw [ih _ _ _ (by omega)]; simp
      · rw [ih _ _ _ (by omega)]; simp
    · rw [if_neg h]

theorem siftup_length (l : List Node) (pos : Nat) :
    (siftup l pos).length = l.length := by
  rw [siftup, siftdownLoop_length, siftupLoop_length l.length pos l l.length (by omega)]

theorem heappop_none_iff (l : List Node) : heappop l = none ↔ l = [] := by
  constructor
  · intro h
    rw [heappop] at h
    cases hl : l.getLast? with
    | none => exact List.getLast?_eq_none_iff.mp hl
    | some x => rw [hl] at h; simp at h; split at h <;> simp at h
  · intro h; rw [h]; rfl

theorem heappop_length (l : List Node) (n : Node) (l' : List Node)
    (h : heappop l = some (n, l')) : l'.length + 1 = l.length := by
  rw [heappop] at h
  cases hl : l.getLast? with
  | none => rw [hl] at h; simp at h
  | some x =>
    have hne : l ≠ [] := by
      intro he; rw [he] at hl; simp at hl
    rw [hl] at h
    simp only at h
    split at h
    · rename_i hempty
      injection h with h1
      injection h1 with h1 h2
      subst h2
      have hd : l.dropLast = [] := hempty
      have hlen := List.length_dropLast l
      rw [hd] at hlen
      have hpos : 1 ≤ l.length := List.length_pos.mpr hne
      rw [hd]
      simp only [List.length_nil] at hlen ⊢
      omega
    · rename_i hempty
      injection h with h1
      injection h1 with h1 h2
      subst h2
      rw [siftup_length]
      have hlen := List.length_dropLast l
      have : 1 ≤ l.length := List.length_pos.mpr hne
      simp only [List.length_set]
      omega

/-! ### The merge loop: fuel irrelevance, step equation, result length -/

theorem mergeNodesGo_of_le_one (fuel : Nat) (heap : List Node)
    (h : ¬ 1 < heap.length) : mergeNodesGo fuel heap = heap := by
  cases fuel with
  | zero => rfl
  | succ k => simp [mergeNodesGo, h]

theorem mergeNodesGo_fuel :
    ∀ (n f1 f2 : Nat) (heap : List Node), heap.length ≤ n →
      heap.length ≤ f1 + 1 → heap.length ≤ f2 + 1 →
      mergeNodesGo f1 heap = mergeNodesGo f2 heap := by
  intro n
  induction n with
  | zero =>
    intro f1 f2 heap hn _ _
    have : ¬ 1 < heap.length := by omega
    rw [mergeNodesGo_of_le_one _ _ this, mergeNodesGo_of_le_one _ _ this]
  | succ n ih =>
    intro f1 f2 heap hn h1 h2
    by_cases hlen : 1 < heap.length
    · have hne : heap ≠ [] := by
        intro he; rw [he] at hlen; simp at hlen
      obtain ⟨⟨n1, r1⟩, e1⟩ :
          ∃ p, heappop heap = some p := by
        cases hp : heappop heap with
        | none => exact absurd (heappop_none_iff heap |>.mp hp) hne
        | some p => exact ⟨p, rfl⟩
      have hr1len : r1.length + 1 = heap.length := heappop_length _ _ _ e1
      have hr1ne : r1 ≠ [] := by
        intro he; rw [he] at hr1len; simp at hr1len; omega
      obtain ⟨⟨n2, r2⟩, e2⟩ :
          ∃ p, heappop r1 = some p := by
        cases hp : heappop r1 with
        | none => exact absurd (heappop_none_iff r1 |>.mp hp) hr1ne
        | some p => exact ⟨p, rfl⟩
      have hr2len : r2.length + 1 = r1.length := heappop_length _ _ _ e2
      obtain ⟨g1, rfl⟩ : ∃ g, f1 = g + 1 := ⟨f1 - 1, by omega⟩
      obtain ⟨g2, rfl⟩ : ∃ g, f2 = g + 1 := ⟨f2 - 1, by omega⟩
      simp only [mergeNodesGo, if_pos hlen, e1, e2]
      have hplen :
          (heappush r2 (Node.mk none (n1.freq + n2.freq) (some n1) (some n2))).length
            = heap.length - 1 := by
        rw [heappush_length]; omega
      exact ih g1 g2 _ (by omega) (by omega) (by omega)
    · rw [mergeNodesGo_of_le_one _ _ hlen, mergeNodesGo_of_le_one _ _ hlen]

theorem mergeNodes_of_le_one (heap : List Node) (h : heap.length ≤ 1) :
    mergeNodes heap = heap :=
  mergeNodesGo_of_le_one _ _ (by omega)

theorem mergeNodes_step (heap : List Node) (n1 n2 : Node) (r1 r2 : List Node)
    (hlen : 1 < heap.length) (e1 : heappop heap = some (n1, r1))
    (e2 : heappop r1 = some (n2, r2)) :
    mergeNodes heap =
      mergeNodes (heappush r2 (Node.mk none (n1.freq + n2.freq) (some n1) (some n2))) := by
  have hr1len : r1.length + 1 = heap.length := heappop_length _ _ _ e1
  have hr2len : r2.length + 1 = r1.length := heappop_length _ _ _ e2
  have hplen :
      (heappush r2 (Node.mk none (n1.freq + n2.freq) (some n1) (some n2))).length
        = heap.length - 1 := by
    rw [heappush_length]; omega
  obtain ⟨k, hk⟩ : ∃ k, heap.length = k + 1 := ⟨heap.length - 1, by omega⟩
  rw [mergeNodes, mergeNodes, hk]
  simp only [mergeNodesGo, if_pos hlen, e1, e2]
  exact mergeNodesGo_fuel (k + 1) k _ _ (by omega) (by omega) (by omega)

/-- Any property of heaps preserved by one merge step is preserved by the whole
`merge_nodes` loop. -/
theorem mergeNodes_invariant (P : List Node → Prop)
    (hstep : ∀ heap n1 r1 n2 r2, 1 < heap.length →
      heappop heap = some (n1, r1) → heappop r1 = some (n2, r2) → P heap →
      P (heappush r2 (Node.mk none (n1.freq + n2.freq) (some n1) (some n2)))) :
    ∀ heap, P heap → P (mergeNodes heap) := by
  have main : ∀ (n : Nat) (heap : List Node), heap.length ≤ n → P heap →
      P (mergeNodes heap) := by
    intro n
    induction n with
    | zero =>
      intro heap hn hp
      rw [mergeNodes_of_le_one _ (by omega)]; exact hp
    | succ n ih =>
      intro heap hn hp
      by_cases hlen : 1 < heap.length
      · have hne : heap ≠ [] := by
          intro he; rw [he] at hlen; simp at hlen
        obtain ⟨⟨n1, r1⟩, e1⟩ : ∃ p, heappop heap = some p := by
          cases hp' : heappop heap with
          | none => exact absurd (heappop_none_iff heap |>.mp hp') hne
          | some p => exact ⟨p, rfl⟩
        have hr1len : r1.length + 1 = heap.length := heappop_length _ _ _ e1
        have hr1ne : r1 ≠ [] := by
          intro he; rw [he] at hr1len; simp at hr1len; omega
        obtain ⟨⟨n2, r2⟩, e2⟩ : ∃ p, heappop r1 = some p := by
          cases hp' : heappop r1 with
          | none => exact absurd (heappop_none_iff r1 |>.mp hp') hr1ne
          | some p => exact ⟨p, rfl⟩
        have hr2len : r2.length + 1 = r1.length := heappop_length _ _ _ e2
        rw [mergeNodes_step heap n1 n2 r1 r2 hlen e1 e2]
        refine ih _ ?_ (hstep heap n1 r1 n2 r2 hlen e1 e2 hp)
        rw [heappush_length]; omega
      · rw [mergeNodes_of_le_one _ (by omega)]; exact hp
  exact fun heap => main heap.length heap (Nat.le_refl _)

theorem mergeNodes_length (heap : List Node) (hne : heap ≠ []) :
    (mergeNodes heap).length = 1 := by
  have main : ∀ (n : Nat) (hp : List Node), hp.length ≤ n → hp ≠ [] →
      (mergeNodes hp).length = 1 := by
    intro n
    induction n with
    | zero =>
      intro hp hn hne
      exact absurd (List.length_eq_zero.mp (by omega)) hne
    | succ n ih =>
      intro hp hn hne
      by_cases hlen : 1 < hp.length
      · obtain ⟨⟨n1, r1⟩, e1⟩ : ∃ p, heappop hp = some p := by
          cases hp' : heappop hp with
          | none => exact absurd (heappop_none_iff hp |>.mp hp') hne
          | some p => exact ⟨p, rfl⟩
        have hr1len : r1.length + 1 = hp.length := heappop_length _ _ _ e1
        have hr1ne : r1 ≠ [] := by
          intro he; rw [he] at hr1len; simp at hr1len; omega
        obtain ⟨⟨n2, r2⟩, e2⟩ : ∃ p, heappop r1 = some p := by
          cases hp' : heappop r1 with
          | none => exact absurd (heappop_none_iff r1 |>.mp hp') hr1ne
          | some p => exact ⟨p, rfl⟩
        have hr2len : r2.length + 1 = r1.length := heappop_length _ _ _ e2
        rw [mergeNodes_step hp n1 n2 r1 r2 hlen e1 e2]
        refine ih _ ?_ ?_
        · rw [heappush_length]; omega
        · intro he
          have := heappush_length r2 (Node.mk none (n1.freq + n2.freq) (some n1) (some n2))
          rw [he] at this; simp at this
      · have h1 : hp.length = 1 := by
          have : 1 ≤ hp.length := List.length_pos.mpr hne
          omega
        rw [mergeNodes_of_le_one _ (by omega)]; exact h1
  exact main heap.length heap (Nat.le_refl _) hne

/-! ### The heap operations permute the heap contents -/

theorem count_set_eq :
    ∀ (l : List Node) (i : Nat) (a : Node), i < l.length → ∀ x : Node,
      (l.set i a).count x + (if getN l i = x then 1 else 0)
        = l.count x + (if a = x then 1 else 0) := by
  intro l
  induction l with
  | nil => intro i a h; simp at h
  | cons b t ih =>
    intro i a h x
    cases i with
    | zero =>
      simp only [List.set_cons_zero, List.count_cons, beq_iff_eq]
      have hg : getN (b :: t) 0 = b := rfl
      rw [hg]
      omega
    | succ j =>
      simp only [List.set_cons_succ, List.count_cons, beq_iff_eq, getN_cons_succ]
      have := ih j a (by simpa using h) x
      omega

theorem set_set_perm (l : List Node) (i j : Nat) (x : Node)
    (hi : i < l.length) (hj : j < l.length) (hij : i ≠ j) :
    List.Perm ((l.set i (getN l j)).set j x) (l.set i x) := by
  rw [List.perm_iff_count]
  intro y
  have e1 := count_set_eq (l.set i (getN l j)) j x (by simpa using hj) y
  have e2 := count_set_eq l i (getN l j) hi y
  have e3 := count_set_eq l i x hi y
  rw [getN_set_ne _ _ _ _ hij] at e1
  omega

theorem siftdownLoop_perm (item : Node) :
    ∀ (pos : Nat) (l : List Node) (s : Nat), pos < l.length →
      List.Perm (siftdownLoop l s pos item) (l.set pos item) := by
  intro pos
  induction pos using Nat.strong_induction_on with
  | _ pos ih =>
    intro l s hpos
    rw [siftdownLoop_eq]
    by_cases h : s < pos
    · rw [if_pos h]
      by_cases hlt : item.freq < (getN l ((pos - 1) / 2)).freq
      · rw [if_pos hlt]
        have hpp : (pos - 1) / 2 < pos := by omega
        have hrec := ih ((pos - 1) / 2) hpp (l.set pos (getN l ((pos - 1) / 2))) s
          (by simp only [List.length_set]; omega)
        refine hrec.trans ?_
        exact set_set_perm l pos ((pos - 1) / 2) item hpos (by omega) (by omega)
      · rw [if_neg hlt]
    · rw [if_neg h]

theorem siftupLoop_main :
    ∀ (k : Nat) (l : List Node) (pos endpos : Nat), endpos - pos ≤ k →
      endpos = l.length → pos < endpos →
      (siftupLoop l pos endpos).2 < endpos ∧
      pos ≤ (siftupLoop l pos endpos).2 ∧
      ¬ 2 * (siftupLoop l pos endpos).2 + 1 < endpos ∧
      ∀ x : Node,
        List.Perm ((siftupLoop l pos endpos).1.set (siftupLoop l pos endpos).2 x)
          (l.set pos x) := by
  intro k
  induction k with
  | zero =>
    intro l pos endpos hk hend hpos
    rw [siftupLoop_eq]
    have h2 : ¬ 2 * pos + 1 < endpos := by omega
    rw [if_neg h2]
    exact ⟨hpos, Nat.le_refl _, h2, fun x => List.Perm.refl _⟩
  | succ k ih =>
    intro l pos endpos hk hend hpos
    rw [siftupLoop_eq]
    by_cases h : 2 * pos + 1 < endpos
    · rw [if_pos h]
      by_cases hc : 2 * pos + 2 < endpos ∧
          ¬ (getN l (2 * pos + 1)).freq < (getN l (2 * pos + 2)).freq
      · rw [if_pos hc]
        have hlen2 : endpos = (l.set pos (getN l (2 * pos + 2))).length := by
          simp [hend]
        have hrec := ih (l.set pos (getN l (2 * pos + 2))) (2 * pos + 2) endpos
          (by omega) hlen2 (by omega)
        refine ⟨hrec.1, by omega, hrec.2.2.1, fun x => ?_⟩
        refine (hrec.2.2.2 x).trans ?_
        exact set_set_perm l pos (2 * pos + 2) x (by omega) (by omega) (by omega)
      · rw [if_neg hc]
        have hlen2 : endpos = (l.set pos (getN l (2 * pos + 1))).length := by
          simp [hend]
        have hrec := ih (l.set pos (getN l (2 * pos + 1))) (2 * pos + 1) endpos
          (by omega) hlen2 (by omega)
        refine ⟨hrec.1, by omega, hrec.2.2.1, fun x => ?_⟩
        refine (hrec.2.2.2 x).trans ?_
        exact set_set_perm l pos (2 * pos + 1) x (by omega) (by omega) (by omega)
    · rw [if_neg h]
      exact ⟨hpos, Nat.le_refl _, h, fun x => List.Perm.refl _⟩

theorem siftup_perm (l : List Node) (pos : Nat) (hpos : pos < l.length) :
    List.Perm (siftup l pos) l := by
  rw [siftup]
  have hmain := siftupLoop_main (l.length - pos) l pos l.length (by omega) rfl hpos
  have hlen1 : (siftupLoop l pos l.length).1.length = l.length :=
    siftupLoop_length (l.length - pos) pos l l.length (by omega)
  have hperm1 := siftdownLoop_perm (getN l pos) (siftupLoop l pos l.length).2
    (siftupLoop l pos l.length).1 pos (by rw [hlen1]; exact hmain.1)
  refine hperm1.trans ?_
  refine (hmain.2.2.2 (getN l pos)).trans ?_
  rw [set_getN_self]

theorem heappush_perm (l : List Node) (x : Node) :
    List.Perm (heappush l x) (x :: l) := by
  rw [heappush]
  have h1 := siftdownLoop_perm x l.length (l ++ [x]) 0 (by simp)
  have h2 : (l ++ [x]).set l.length x = l ++ [x] := by
    have := set_getN_self (l ++ [x]) l.length
    rw [getN_snoc_self] at this
    exact this
  rw [h2] at h1
  exact h1.trans (List.perm_append_singleton x l)

theorem head_getN (l : List Node) (hne : l ≠ []) : l = getN l 0 :: l.tail := by
  cases l with
  | nil => exact absurd rfl hne
  | cons a t => rfl

theorem heappop_perm (l : List Node) (n : Node) (l' : List Node)
    (h : heappop l = some (n, l')) : List.Perm l (n :: l') := by
  have hne : l ≠ [] := by
    intro he
    rw [he] at h
    simp [heappop] at h
  obtain ⟨lastelt, hl⟩ : ∃ x, l.getLast? = some x := by
    cases hgl : l.getLast? with
    | none => exact absurd (List.getLast?_eq_none_iff.mp hgl) hne
    | some x => exact ⟨x, rfl⟩
  have hdrop : l.dropLast ++ [lastelt] = l :=
    List.dropLast_append_getLast? lastelt hl
  rw [heappop, hl] at h
  simp only at h
  split at h
  · rename_i hempty
    injection h with h1
    injection h1 with h1 h2
    subst h1; subst h2
    rw [← hdrop, hempty]
    exact List.Perm.refl _
  · rename_i hempty
    injection h with h1
    injection h1 with h1 h2
    subst h1; subst h2
    have hposlen : 0 < l.dropLast.length := List.length_pos.mpr hempty
    have hsp : List.Perm (siftup (l.dropLast.set 0 lastelt) 0) (l.dropLast.set 0 lastelt) :=
      siftup_perm _ 0 (by simp only [List.length_set]; exact hposlen)
    have hhead : l.dropLast = getN l.dropLast 0 :: l.dropLast.tail := head_getN _ hempty
    have hset : l.dropLast.set 0 lastelt = lastelt :: l.dropLast.tail := by
      conv_lhs => rw [hhead]
      rfl
    have e1 : l = getN l.dropLast 0 :: (l.dropLast.tail ++ [lastelt]) := by
      conv_lhs => rw [← hdrop, hhead]
      rfl
    refine List.Perm.trans ?_ (List.Perm.cons _ hsp.symm)
    rw [hset]
    conv_lhs => rw [e1]
    exact List.Perm.cons _ (List.perm_append_singleton _ _)

/-! ### Leaf characters and tree shape through the pipeline -/

theorem flatten_perm_of_perm :
    ∀ {l1 l2 : List (List Char)}, List.Perm l1 l2 →
      List.Perm l1.flatten l2.flatten := by
  intro l1 l2 h
  induction h with
  | nil => exact List.Perm.refl _
  | cons x _ ih =>
    simp only [List.flatten_cons]
    exact List.Perm.append_left x ih
  | swap x y l =>
    simp only [List.flatten_cons]
    exact List.perm_append_comm_assoc y x l.flatten
  | trans _ _ ih1 ih2 => exact ih1.trans ih2

theorem heapChars_perm {h1 h2 : List Node} (hp : List.Perm h1 h2) :
    List.Perm (heapChars h1) (heapChars h2) :=
  flatten_perm_of_perm (hp.map leafCharsN)

theorem heapChars_cons (x : Node) (h : List Node) :
    heapChars (x :: h) = leafCharsN x ++ heapChars h := rfl

theorem leafCharsN_char (c : Char) (f : Nat) (l r : Option Node) :
    leafCharsN (Node.mk (some c) f l r) = [c] := by
  rw [leafCharsN, leafCharsO]

theorem leafCharsN_internal (f : Nat) (l r : Option Node) :
    leafCharsN (Node.mk none f l r) = leafCharsO l ++ leafCharsO r := by
  rw [leafCharsN, leafCharsO]

theorem heapChars_heappush (h : List Node) (x : Node) :
    List.Perm (heapChars (heappush h x)) (leafCharsN x ++ heapChars h) :=
  heapChars_perm (heappush_perm h x)

theorem makeHeap_WF (fd : List (Char × Nat)) :
    ∀ h0 : List Node, (∀ n ∈ h0, WFTree n) → ∀ n ∈ makeHeap h0 fd, WFTree n := by
  induction fd with
  | nil => intro h0 hwf n hn; exact hwf n hn
  | cons cf rest ih =>
    intro h0 hwf n hn
    refine ih (heappush h0 (Node.mk (some cf.1) cf.2 none none)) ?_ n hn
    intro m hm
    have := (heappush_perm h0 (Node.mk (some cf.1) cf.2 none none)).mem_iff.mp hm
    rcases List.mem_cons.mp this with h | h
    · rw [h]; exact WFTree.leaf cf.1 cf.2
    · exact hwf m h

theorem makeHeap_chars (fd : List (Char × Nat)) :
    ∀ h0 : List Node,
      List.Perm (heapChars (makeHeap h0 fd)) (heapChars h0 ++ fd.map Prod.fst) := by
  induction fd with
  | nil => intro h0; simp [makeHeap]
  | cons cf rest ih =>
    intro h0
    have step : makeHeap h0 (cf :: rest)
        = makeHeap (heappush h0 (Node.mk (some cf.1) cf.2 none none)) rest := rfl
    rw [step]
    refine (ih _).trans ?_
    have h1 : List.Perm
        (heapChars (heappush h0 (Node.mk (some cf.1) cf.2 none none)) ++ rest.map Prod.fst)
        (([cf.1] ++ heapChars h0) ++ rest.map Prod.fst) := by
      refine List.Perm.append_right _ ?_
      have := heapChars_heappush h0 (Node.mk (some cf.1) cf.2 none none)
      rwa [leafCharsN_char] at this
    refine h1.trans ?_
    have h2 : List.Perm (([cf.1] ++ heapChars h0) ++ rest.map Prod.fst)
        ((heapChars h0 ++ [cf.1]) ++ rest.map Prod.fst) :=
      List.Perm.append_right _ List.perm_append_comm
    refine h2.trans ?_
    simp [List.append_assoc]

theorem mergeNodes_WF (heap : List Node) (hwf : ∀ n ∈ heap, WFTree n) :
    ∀ n ∈ mergeNodes heap, WFTree n := by
  refine mergeNodes_invariant (fun hp => ∀ n ∈ hp, WFTree n) ?_ heap hwf
  intro hp n1 r1 n2 r2 _ e1 e2 hP n hn
  have hp1 := heappop_perm hp n1 r1 e1
  have hp2 := heappop_perm r1 n2 r2 e2
  have hmem := (heappush_perm r2
    (Node.mk none (n1.freq + n2.freq) (some n1) (some n2))).mem_iff.mp hn
  have hmem1 : n1 ∈ hp := hp1.symm.mem_iff.mp (List.mem_cons_self _ _)
  have hmem2 : n2 ∈ hp := by
    have : n2 ∈ r1 := hp2.symm.mem_iff.mp (List.mem_cons_self _ _)
    exact hp1.symm.mem_iff.mp (List.mem_cons_of_mem _ this)
  rcases List.mem_cons.mp hmem with h | h
  · rw [h]
    exact WFTree.node n1 n2 (hP n1 hmem1) (hP n2 hmem2)
  · have : n ∈ r1 := hp2.symm.mem_iff.mp (List.mem_cons_of_mem _ h)
    exact hP n (hp1.symm.mem_iff.mp (List.mem_cons_of_mem _ this))

theorem mergeNodes_chars (heap : List Node) :
    List.Perm (heapChars (mergeNodes heap)) (heapChars heap) := by
  refine mergeNodes_invariant (fun hp => List.Perm (heapChars hp) (heapChars heap)) ?_
    heap (List.Perm.refl _)
  intro hp n1 r1 n2 r2 _ e1 e2 hP
  have hp1 := heapChars_perm (heappop_perm hp n1 r1 e1)
  have hp2 := heapChars_perm (heappop_perm r1 n2 r2 e2)
  refine (heapChars_heappush r2 (Node.mk none (n1.freq + n2.freq) (some n1) (some n2))).trans ?_
  have hlc : leafCharsN (Node.mk none (n1.freq + n2.freq) (some n1) (some n2))
      = leafCharsN n1 ++ leafCharsN n2 := by
    rw [leafCharsN_internal]; rfl
  rw [hlc]
  have step1 : List.Perm ((leafCharsN n1 ++ leafCharsN n2) ++ heapChars r2)
      (leafCharsN n1 ++ (leafCharsN n2 ++ heapChars r2)) := by
    rw [List.append_assoc]
  refine step1.trans ?_
  have step2 : List.Perm (leafCharsN n1 ++ (leafCharsN n2 ++ heapChars r2))
      (leafCharsN n1 ++ heapChars r1) := by
    refine List.Perm.append_left _ ?_
    rw [← heapChars_cons]
    exact hp2.symm
  refine step2.trans ?_
  rw [← heapChars_cons]
  exact hp1.symm.trans hP

theorem length_one_eq (l : List Node) (h : l.length = 1) : l = [getN l 0] := by
  cases l with
  | nil => simp at h
  | cons a t =>
    cases t with
    | nil => rfl
    | cons b t' => simp at h

/-! ### Association-list dictionaries -/

theorem dictGet_dictSet_self {κ ν : Type} [DecidableEq κ] :
    ∀ (d : List (κ × ν)) (k : κ) (v : ν), dictGet (dictSet d k v) k = some v := by
  intro d
  induction d with
  | nil => intro k v; simp [dictGet, dictSet]
  | cons p rest ih =>
    intro k v
    obtain ⟨k', v'⟩ := p
    by_cases h : k' = k
    · simp [dictGet, dictSet, h]
    · simp only [dictSet, if_neg h, dictGet]
      exact ih k v

theorem dictGet_dictSet_ne {κ ν : Type} [DecidableEq κ] :
    ∀ (d : List (κ × ν)) (k q : κ) (v : ν), q ≠ k →
      dictGet (dictSet d k v) q = dictGet d q := by
  intro d
  induction d with
  | nil =>
    intro k q v h
    simp only [dictSet, dictGet]
    rw [if_neg (fun he => h he.symm)]
  | cons p rest ih =>
    intro k q v h
    obtain ⟨k', v'⟩ := p
    by_cases hk : k' = k
    · subst hk
      simp only [dictSet, if_pos rfl, dictGet]
      rw [if_neg (fun he => h he.symm), if_neg (fun he => h he.symm)]
    · simp only [dictSet, if_neg hk, dictGet]
      by_cases hq : k' = q
      · rw [if_pos hq, if_pos hq]
      · rw [if_neg hq, if_neg hq]
        exact ih k q v h

theorem dictGet_ne_none_iff {κ ν : Type} [DecidableEq κ] :
    ∀ (d : List (κ × ν)) (k : κ), dictGet d k ≠ none ↔ k ∈ d.map Prod.fst := by
  intro d
  induction d with
  | nil => intro k; simp [dictGet]
  | cons p rest ih =>
    intro k
    obtain ⟨k', v'⟩ := p
    by_cases h : k' = k
    · subst h
      simp [dictGet]
    · simp only [dictGet, if_neg h, List.map_cons, List.mem_cons]
      rw [ih k]
      constructor
      · intro hm; exact Or.inr hm
      · intro hm
        rcases hm with hm | hm
        · exact absurd hm.symm h
        · exact hm

theorem keys_dictSet_of_mem {κ ν : Type} [DecidableEq κ] :
    ∀ (d : List (κ × ν)) (k : κ) (v : ν), dictGet d k ≠ none →
      (dictSet d k v).map Prod.fst = d.map Prod.fst := by
  intro d
  induction d with
  | nil => intro k v h; simp [dictGet] at h
  | cons p rest ih =>
    intro k v h
    obtain ⟨k', v'⟩ := p
    by_cases hk : k' = k
    · simp [dictSet, hk]
    · simp only [dictGet, if_neg hk] at h
      simp only [dictSet, if_neg hk, List.map_cons, List.cons.injEq, true_and]
      exact ih k v h

theorem keys_dictSet_of_not_mem {κ ν : Type} [DecidableEq κ] :
    ∀ (d : List (κ × ν)) (k : κ) (v : ν), dictGet d k = none →
      (dictSet d k v).map Prod.fst = d.map Prod.fst ++ [k] := by
  intro d
  induction d with
  | nil => intro k v _; simp [dictSet]
  | cons p rest ih =>
    intro k v h
    obtain ⟨k', v'⟩ := p
    by_cases hk : k' = k
    · simp [dictGet, hk] at h
    · simp only [dictGet, if_neg hk] at h
      simp only [dictSet, if_neg hk, List.map_cons, List.cons_append, List.cons.injEq, true_and]
      exact ih k v h

theorem keys_dictSet_nodup {κ ν : Type} [DecidableEq κ]
    (d : List (κ × ν)) (k : κ) (v : ν) (hnd : (d.map Prod.fst).Nodup) :
    ((dictSet d k v).map Prod.fst).Nodup := by
  by_cases h : dictGet d k = none
  · rw [keys_dictSet_of_not_mem d k v h]
    rw [List.nodup_append]
    refine ⟨hnd, List.nodup_singleton k, ?_⟩
    intro a ha hb
    rcases List.mem_singleton.mp hb with rfl
    exact (dictGet_ne_none_iff d a).mpr ha h
  · rw [keys_dictSet_of_mem d k v h]
    exact hnd

theorem dictSet_values {κ ν : Type} [DecidableEq κ] (P : ν → Prop) :
    ∀ (d : List (κ × ν)) (k : κ) (v : ν), (∀ p ∈ d, P p.2) → P v →
      ∀ p ∈ dictSet d k v, P p.2 := by
  intro d
  induction d with
  | nil =>
    intro k v _ hv p hp
    rcases List.mem_singleton.mp hp with rfl
    exact hv
  | cons q rest ih =>
    intro k v hall hv p hp
    obtain ⟨k', v'⟩ := q
    by_cases hk : k' = k
    · simp only [dictSet, if_pos hk] at hp
      rcases List.mem_cons.mp hp with rfl | hp
      · exact hv
      · exact hall p (List.mem_cons_of_mem _ hp)
    · simp only [dictSet, if_neg hk] at hp
      rcases List.mem_cons.mp hp with rfl | hp
      · exact hall (k', v') (List.mem_cons_self _ _)
      · exact ih k v (fun q hq => hall q (List.mem_cons_of_mem _ hq)) hv p hp

/-! ### Correctness of `make_frequency_dict` -/

theorem sumVals_step :
    ∀ (d : List (Char × Nat)) (c : Char),
      sumVals (dictSet d c ((dictGet d c).getD 0 + 1)) = sumVals d + 1 := by
  intro d
  induction d with
  | nil => intro c; simp [sumVals, dictSet, dictGet]
  | cons p rest ih =>
    intro c
    obtain ⟨k, w⟩ := p
    by_cases hk : k = c
    · subst hk
      simp only [dictGet, if_pos rfl, dictSet, Option.getD_some]
      simp [sumVals]
      omega
    · simp only [dictGet, if_neg hk, dictSet]
      simp only [sumVals, List.map_cons, List.sum_cons] at ih ⊢
      rw [ih c]
      omega

theorem freq_foldl_sum :
    ∀ (text : List Char) (d : List (Char × Nat)),
      sumVals (text.foldl (fun d c => dictSet d c ((dictGet d c).getD 0 + 1)) d)
        = sumVals d + text.length := by
  intro text
  induction text with
  | nil => intro d; simp
  | cons x rest ih =>
    intro d
    simp only [List.foldl_cons, List.length_cons]
    rw [ih, sumVals_step]
    omega

theorem freq_foldl_not_mem :
    ∀ (text : List Char) (d : List (Char × Nat)) (c : Char), c ∉ text →
      dictGet (text.foldl (fun d c => dictSet d c ((dictGet d c).getD 0 + 1)) d) c
        = dictGet d c := by
  intro text
  induction text with
  | nil => intro d c _; rfl
  | cons x rest ih =>
    intro d c hc
    have hcx : c ≠ x := fun he => hc (he ▸ List.mem_cons_self x rest)
    have hcr : c ∉ rest := fun hm => hc (List.mem_cons_of_mem x hm)
    simp only [List.foldl_cons]
    rw [ih _ c hcr, dictGet_dictSet_ne _ _ _ _ hcx]

theorem freq_foldl_mem :
    ∀ (text : List Char) (d : List (Char × Nat)) (c : Char), c ∈ text →
      dictGet (text.foldl (fun d c => dictSet d c ((dictGet d c).getD 0 + 1)) d) c
        = some ((dictGet d c).getD 0 + text.count c) := by
  intro text
  induction text with
  | nil => intro d c hc; simp at hc
  | cons x rest ih =>
    intro d c hc
    simp only [List.foldl_cons]
    by_cases hcr : c ∈ rest
    · rw [ih _ c hcr]
      by_cases hcx : c = x
      · subst hcx
        rw [dictGet_dictSet_self]
        simp only [Option.getD_some, List.count_cons, beq_iff_eq]
        simp
        omega
      · rw [dictGet_dictSet_ne _ _ _ _ hcx]
        have hxc : ¬ x = c := fun he => hcx he.symm
        simp [List.count_cons, beq_iff_eq, hxc, hcx]
    · have hcx : c = x := by
        rcases List.mem_cons.mp hc with h | h
        · exact h
        · exact absurd h hcr
      subst hcx
      rw [freq_foldl_not_mem rest _ c hcr, dictGet_dictSet_self]
      have hcount : rest.count c = 0 := List.count_eq_zero.mpr hcr
      simp only [List.count_cons, beq_iff_eq, hcount, if_pos rfl]
      simp

theorem freq_foldl_values :
    ∀ (text : List Char) (d : List (Char × Nat)), (∀ p ∈ d, 1 ≤ p.2) →
      ∀ p ∈ text.foldl (fun d c => dictSet d c ((dictGet d c).getD 0 + 1)) d,
        1 ≤ p.2 := by
  intro text
  induction text with
  | nil => intro d h p hp; exact h p hp
  | cons x rest ih =>
    intro d h p hp
    simp only [List.foldl_cons] at hp
    refine ih _ ?_ p hp
    exact dictSet_values (fun v => 1 ≤ v) d x _ h (by omega)

theorem freq_foldl_nodup :
    ∀ (text : List Char) (d : List (Char × Nat)), ((d.map Prod.fst).Nodup) →
      (((text.foldl (fun d c => dictSet d c ((dictGet d c).getD 0 + 1)) d).map
        Prod.fst).Nodup) := by
  intro text
  induction text with
  | nil => intro d h; exact h
  | cons x rest ih =>
    intro d h
    simp only [List.foldl_cons]
    exact ih _ (keys_dictSet_nodup d x _ h)

theorem makeFrequencyDict_keys_nodup (text : List Char) :
    ((makeFrequencyDict text).map Prod.fst).Nodup :=
  freq_foldl_nodup text [] (List.nodup_nil)

theorem makeFrequencyDict_get_of_mem (text : List Char) (c : Char) (hc : c ∈ text) :
    dictGet (makeFrequencyDict text) c = some (text.count c) := by
  rw [makeFrequencyDict, freq_foldl_mem text [] c hc]
  simp [dictGet]

theorem makeFrequencyDict_get_of_not_mem (text : List Char) (c : Char) (hc : c ∉ text) :
    dictGet (makeFrequencyDict text) c = none := by
  rw [makeFrequencyDict, freq_foldl_not_mem text [] c hc]
  rfl

theorem makeFrequencyDict_mem_keys_iff (text : List Char) (c : Char) :
    c ∈ (makeFrequencyDict text).map Prod.fst ↔ c ∈ text := by
  rw [← dictGet_ne_none_iff]
  constructor
  · intro h
    by_contra hc
    exact h (makeFrequencyDict_get_of_not_mem text c hc)
  · intro h
    rw [makeFrequencyDict_get_of_mem text c h]
    simp

/-! ### `get_encoded_text` -/

theorem getEncodedText_missing :
    ∀ (codes : List (Char × List Char)) (text : List Char) (c : Char),
      c ∈ text → dictGet codes c = none → getEncodedText codes text = none := by
  intro codes text
  induction text with
  | nil => intro c hc _; simp at hc
  | cons x rest ih =>
    intro c hc hnone
    cases hx : dictGet codes x with
    | none => simp [getEncodedText, hx]
    | some code =>
      rcases List.mem_cons.mp hc with rfl | hr
      · rw [hx] at hnone; simp at hnone
      · simp [getEncodedText, hx, ih c hr hnone]

theorem getEncodedText_covered :
    ∀ (codes : List (Char × List Char)) (text : List Char),
      (∀ c ∈ text, dictGet codes c ≠ none) →
      getEncodedText codes text
        = some ((text.map (fun c => (dictGet codes c).getD [])).flatten) := by
  intro codes text
  induction text with
  | nil => intro _; rfl
  | cons x rest ih =>
    intro hcov
    have hx : dictGet codes x ≠ none := hcov x (List.mem_cons_self _ _)
    obtain ⟨code, hcode⟩ : ∃ v, dictGet codes x = some v := by
      cases h : dictGet codes x with
      | none => exact absurd h hx
      | some v => exact ⟨v, rfl⟩
    have hrest := ih (fun c hc => hcov c (List.mem_cons_of_mem _ hc))
    simp [getEncodedText, hcode, hrest]

theorem getEncodedText_congr :
    ∀ (c1 c2 : List (Char × List Char)) (text : List Char),
      (∀ c ∈ text, dictGet c1 c = dictGet c2 c) →
      getEncodedText c1 text = getEncodedText c2 text := by
  intro c1 c2 text
  induction text with
  | nil => intro _; rfl
  | cons x rest ih =>
    intro hag
    have hx : dictGet c1 x = dictGet c2 x := hag x (List.mem_cons_self _ _)
    have hrest := ih (fun c hc => hag c (List.mem_cons_of_mem _ hc))
    simp only [getEncodedText, hx, hrest]

/-! ### Claim theorems: the directly computational claims -/

/-- Claim C2: `make_frequency_dict` returns a table whose counts sum to the
input length, maps every occurring symbol to its exact occurrence count (all
stored counts are at least one), contains no binding for absent symbols, and
yields the empty table on empty input; as embedded it is a pure function of
the text. -/
theorem makeFrequencyDict_spec (text : List Char) :
    sumVals (makeFrequencyDict text) = text.length ∧
    (∀ c, c ∈ text → dictGet (makeFrequencyDict text) c = some (text.count c)) ∧
    (∀ p, p ∈ makeFrequencyDict text → 1 ≤ p.2) ∧
    (∀ c, c ∉ text → dictGet (makeFrequencyDict text) c = none) ∧
    makeFrequencyDict [] = [] := by
  refine ⟨?_, ?_, ?_, ?_, rfl⟩
  · rw [makeFrequencyDict, freq_foldl_sum]
    simp [sumVals]
  · exact fun c hc => makeFrequencyDict_get_of_mem text c hc
  · exact fun p hp => freq_foldl_values text [] (by simp) p hp
  · exact fun c hc => makeFrequencyDict_get_of_not_mem text c hc

theorem makeFrequencyDict_spec_witness :
    dictGet (makeFrequencyDict ['a', 'b', 'a']) 'a' = some 2 :=
  (makeFrequencyDict_spec ['a', 'b', 'a']).2.1 'a' (by decide)

/-- Claim C4: `pad_encoded_text` computes `padding = 8 - len % 8`, which is
always in `[1, 8]` and equals `8` exactly when the length is already a
multiple of `8`; it appends exactly that many `'0'` characters, and the result
has length a multiple of `8` and extends the original bit string. -/
theorem padEncodedText_spec (bits : List Char) :
    1 ≤ (padEncodedText bits).2 ∧
    (padEncodedText bits).2 ≤ 8 ∧
    (padEncodedText bits).2 = 8 - bits.length % 8 ∧
    ((padEncodedText bits).2 = 8 ↔ bits.length % 8 = 0) ∧
    (padEncodedText bits).1 = bits ++ List.replicate (padEncodedText bits).2 '0' ∧
    (padEncodedText bits).1.length % 8 = 0 ∧
    bits <+: (padEncodedText bits).1 := by
  have hm : bits.length % 8 < 8 := Nat.mod_lt _ (by omega)
  have h2 : (padEncodedText bits).2 = 8 - bits.length % 8 := rfl
  have h1 : (padEncodedText bits).1
      = bits ++ List.replicate (8 - bits.length % 8) '0' := rfl
  refine ⟨by omega, by omega, h2, by omega, by rw [h1, h2], ?_, ?_⟩
  · rw [h1]
    simp only [List.length_append, List.length_replicate]
    omega
  · exact ⟨List.replicate (padEncodedText bits).2 '0', by rw [h2, h1]⟩

/-- Claim C10: `get_encoded_text` fails (a `KeyError`, modelled as `none`) as
soon as some character of the text is missing from the code table, and on a
fully covered text returns the concatenation of each character's code in
input order; it reads but never writes the encoder state. -/
theorem getEncodedText_spec (codes : List (Char × List Char)) (text : List Char) :
    ((∃ c, c ∈ text ∧ dictGet codes c = none) → getEncodedText codes text = none) ∧
    ((∀ c ∈ text, dictGet codes c ≠ none) →
      getEncodedText codes text
        = some ((text.map (fun c => (dictGet codes c).getD [])).flatten)) := by
  constructor
  · rintro ⟨c, hc, hnone⟩
    exact getEncodedText_missing codes text c hc hnone
  · exact getEncodedText_covered codes text

theorem getEncodedText_spec_witness :
    getEncodedText [('a', ['0'])] ['a', 'b'] = none :=
  (getEncodedText_spec [('a', ['0'])] ['a', 'b']).1 ⟨'b', by decide, rfl⟩

/-- Claim C5: on input `"AABBBCCCC"` the frequency table is
`{A: 2, B: 3, C: 4}`, the concatenated code string is 14 bits long, the
padding is 2 bits, and the written bytes are the header byte `2` followed by
the two packed bytes `175` and `192`. -/
theorem concreteScenario_AABBBCCCC :
    makeFrequencyDict "AABBBCCCC".toList = [('A', 2), ('B', 3), ('C', 4)] ∧
    ((makeCodes (EncoderState.mk
        (mergeNodes (makeHeap [] (makeFrequencyDict "AABBBCCCC".toList))) [] [] 0)).bind
      (fun st => getEncodedText st.codes "AABBBCCCC".toList)).map List.length
      = some 14 ∧
    ((makeCodes (EncoderState.mk
        (mergeNodes (makeHeap [] (makeFrequencyDict "AABBBCCCC".toList))) [] [] 0)).bind
      (fun st => getEncodedText st.codes "AABBBCCCC".toList)).map
        (fun e => (padEncodedText e).2) = some 2 ∧
    (compressFrom initState "AABBBCCCC".toList).map Prod.snd = some [2, 175, 192] := by
  exact ⟨rfl, rfl, rfl, rfl⟩

/-- Claim C6 (the code, not the claim): encoding the empty input does fail,
but not with a typed `EmptyInput` error: `make_frequency_dict` returns the
empty table, `make_heap` leaves the heap empty, `merge_nodes` does nothing,
and `make_codes` then pops the empty heap, raising an untyped `IndexError`
(modelled as `none`). -/
theorem emptyInput_crash :
    makeFrequencyDict [] = [] ∧
    makeHeap [] (makeFrequencyDict []) = [] ∧
    mergeNodes (makeHeap [] (makeFrequencyDict [])) = [] ∧
    heappop ([] : List Node) = none ∧
    makeCodes (EncoderState.mk (mergeNodes (makeHeap [] (makeFrequencyDict []))) [] [] 0)
      = none ∧
    compressFrom initState [] = none :=
  ⟨rfl, rfl, rfl, rfl, rfl, rfl⟩

/-- Claim C7 (the code, not the claim): on input `"AAAA"` the frequency table
is `{A: 4}` and the tree is a single leaf, but code assignment gives `A` the
empty string, not a non-empty code. -/
theorem singleSymbol_emptyCode :
    makeFrequencyDict "AAAA".toList = [('A', 4)] ∧
    mergeNodes (makeHeap [] (makeFrequencyDict "AAAA".toList))
      = [Node.mk (some 'A') 4 none none] ∧
    (makeCodes (EncoderState.mk
        (mergeNodes (makeHeap [] (makeFrequencyDict "AAAA".toList))) [] [] 0)).map
      (fun st => dictGet st.codes 'A') = some (some []) :=
  ⟨rfl, rfl, rfl⟩

/-- Claim C9, counterexample: the code table is carried in the mutable
attribute `self.codes` and is not reset between `compress` calls.  After
compressing `"ab"`, compressing `"c"` on the same encoder leaves the stale
binding `'a' ↦ "0"` in the resulting code table, while a fresh encoder
compressing `"c"` has no binding for `'a'` at all. -/
theorem statePersists_counterexample :
    ((compressFrom initState ['a', 'b']).bind (fun r => compressFrom r.1 ['c'])).map
        (fun r => dictGet r.1.codes 'a') = some (some ['0']) ∧
    (compressFrom initState ['c']).map (fun r => dictGet r.1.codes 'a') = some none :=
  ⟨rfl, rfl⟩

/-! ### `make_codes_helper`: untouched keys, state independence, prefix freedom -/

theorem makeCodesHelper_leaf (c : Char) (f : Nat) (code : List Char)
    (st : List (Char × List Char) × List (List Char × Char)) :
    makeCodesHelper (some (Node.mk (some c) f none none)) code st
      = (dictSet st.1 c code, dictSet st.2 code c) := rfl

theorem makeCodesHelper_node (f : Nat) (l r : Node) (code : List Char)
    (st : List (Char × List Char) × List (List Char × Char)) :
    makeCodesHelper (some (Node.mk none f (some l) (some r))) code st
      = makeCodesHelper (some r) (code ++ ['1'])
          (makeCodesHelper (some l) (code ++ ['0']) st) := rfl

theorem helper_untouched :
    ∀ (n : Node), WFTree n → ∀ (code : List Char) st (c : Char),
      c ∉ leafCharsN n →
      dictGet (makeCodesHelper (some n) code st).1 c = dictGet st.1 c := by
  intro n hwf
  induction hwf with
  | leaf c0 f =>
    intro code st c hc
    rw [leafCharsN_char] at hc
    have hne : c ≠ c0 := fun he => hc (he ▸ List.mem_singleton.mpr rfl)
    rw [makeCodesHelper_leaf]
    exact dictGet_dictSet_ne _ _ _ _ hne
  | node l r _ _ ihl ihr =>
    intro code st c hc
    rw [leafCharsN_internal] at hc
    have hcl : c ∉ leafCharsN l := fun hm => hc (List.mem_append.mpr (Or.inl hm))
    have hcr : c ∉ leafCharsN r := fun hm => hc (List.mem_append.mpr (Or.inr hm))
    rw [makeCodesHelper_node, ihr _ _ c hcr, ihl _ _ c hcl]

theorem helper_state_indep :
    ∀ (n : Node), WFTree n → ∀ (code : List Char) st st' (c : Char),
      c ∈ leafCharsN n →
      dictGet (makeCodesHelper (some n) code st).1 c
        = dictGet (makeCodesHelper (some n) code st').1 c := by
  intro n hwf
  induction hwf with
  | leaf c0 f =>
    intro code st st' c hc
    rw [leafCharsN_char] at hc
    rcases List.mem_singleton.mp hc with rfl
    rw [makeCodesHelper_leaf, makeCodesHelper_leaf,
      dictGet_dictSet_self, dictGet_dictSet_self]
  | node l r hl hr ihl ihr =>
    intro code st st' c hc
    rw [leafCharsN_internal] at hc
    rw [makeCodesHelper_node, makeCodesHelper_node]
    by_cases hcr : c ∈ leafCharsN r
    · exact ihr _ _ _ c hcr
    · have hcl : c ∈ leafCharsN l := by
        rcases List.mem_append.mp hc with h | h
        · exact h
        · exact absurd h hcr
      rw [helper_untouched r hr _ _ c hcr, helper_untouched r hr _ _ c hcr,
        ihl _ _ _ c hcl]

theorem helper_covered :
    ∀ (n : Node), WFTree n → ∀ (code : List Char) st (c : Char),
      c ∈ leafCharsN n →
      dictGet (makeCodesHelper (some n) code st).1 c ≠ none := by
  intro n hwf
  induction hwf with
  | leaf c0 f =>
    intro code st c hc
    rw [leafCharsN_char] at hc
    rcases List.mem_singleton.mp hc with rfl
    rw [makeCodesHelper_leaf, dictGet_dictSet_self]
    simp
  | node l r hl hr ihl ihr =>
    intro code st c hc
    rw [leafCharsN_internal] at hc
    rw [makeCodesHelper_node]
    by_cases hcr : c ∈ leafCharsN r
    · exact ihr _ _ c hcr
    · have hcl : c ∈ leafCharsN l := by
        rcases List.mem_append.mp hc with h | h
        · exact h
        · exact absurd h hcr
      rw [helper_untouched r hr _ _ c hcr]
      exact ihl _ _ c hcl

theorem helper_main :
    ∀ (n : Node), WFTree n → ∀ (code : List Char) st,
      (leafCharsN n).Nodup →
      (∀ c ∈ leafCharsN n, ∃ s,
        dictGet (makeCodesHelper (some n) code st).1 c = some (code ++ s)) ∧
      (∀ a b ca cb, a ∈ leafCharsN n → b ∈ leafCharsN n → a ≠ b →
        dictGet (makeCodesHelper (some n) code st).1 a = some ca →
        dictGet (makeCodesHelper (some n) code st).1 b = some cb →
        ¬ ca <+: cb) := by
  intro n hwf
  induction hwf with
  | leaf c0 f =>
    intro code st _
    constructor
    · intro c hc
      rw [leafCharsN_char] at hc
      rcases List.mem_singleton.mp hc with rfl
      rw [makeCodesHelper_leaf, dictGet_dictSet_self]
      exact ⟨[], by simp⟩
    · intro a b ca cb ha hb hab _ _
      rw [leafCharsN_char] at ha hb
      rcases List.mem_singleton.mp ha with rfl
      rcases List.mem_singleton.mp hb with rfl
      exact absurd rfl hab
  | node l r hl hr ihl ihr =>
    intro code st hnd
    rw [leafCharsN_internal] at hnd
    obtain ⟨hndl, hndr, hdisj⟩ := List.nodup_append.mp hnd
    rw [makeCodesHelper_node]
    have hget : ∀ c ∈ leafCharsO (some l) ++ leafCharsO (some r), ∃ s,
        dictGet (makeCodesHelper (some r) (code ++ ['1'])
          (makeCodesHelper (some l) (code ++ ['0']) st)).1 c = some (code ++ s) ∧
        ((c ∈ leafCharsN l → ∃ s', s = '0' :: s') ∧
         (c ∈ leafCharsN r → ∃ s', s = '1' :: s')) := by
      intro c hc
      by_cases hcr : c ∈ leafCharsN r
      · obtain ⟨s, hs⟩ := (ihr (code ++ ['1'])
          (makeCodesHelper (some l) (code ++ ['0']) st) hndr).1 c hcr
        refine ⟨'1' :: s, ?_, ?_, fun _ => ⟨s, rfl⟩⟩
        · rw [hs, List.append_assoc]; rfl
        · intro hcl; exact absurd hcr (hdisj hcl)
      · have hcl : c ∈ leafCharsN l := by
          rcases List.mem_append.mp hc with h | h
          · exact h
          · exact absurd h hcr
        obtain ⟨s, hs⟩ := (ihl (code ++ ['0']) st hndl).1 c hcl
        refine ⟨'0' :: s, ?_, fun _ => ⟨s, rfl⟩, fun hcr' => absurd hcr' hcr⟩
        rw [helper_untouched r hr _ _ c hcr, hs, List.append_assoc]
        rfl
    constructor
    · intro c hc
      rw [leafCharsN_internal] at hc
      obtain ⟨s, hs, _⟩ := hget c hc
      exact ⟨s, hs⟩
    · intro a b ca cb ha hb hab hga hgb hpre
      rw [leafCharsN_internal] at ha hb
      obtain ⟨t, ht⟩ := hpre
      by_cases har : a ∈ leafCharsN r
      · by_cases hbr : b ∈ leafCharsN r
        · exact (ihr (code ++ ['1'])
            (makeCodesHelper (some l) (code ++ ['0']) st) hndr).2
            a b ca cb har hbr hab hga hgb ⟨t, ht⟩
        · -- a in the right subtree, b in the left: codes start code ++ '1' vs code ++ '0'
          have hbl : b ∈ leafCharsN l := by
            rcases List.mem_append.mp hb with h | h
            · exact h
            · exact absurd h hbr
          obtain ⟨sa, hsa, _, hsa1⟩ := hget a ha
          obtain ⟨sb, hsb, hsb0, _⟩ := hget b hb
          obtain ⟨sa', rfl⟩ := hsa1 har
          obtain ⟨sb', rfl⟩ := hsb0 hbl
          rw [hga] at hsa
          rw [hgb] at hsb
          injection hsa with hsa
          injection hsb with hsb
          subst hsa; subst hsb
          rw [List.append_assoc] at ht
          have := List.append_cancel_left ht
          simp at this
      · have hal : a ∈ leafCharsN l := by
          rcases List.mem_append.mp ha with h | h
          · exact h
          · exact absurd h har
        by_cases hbr : b ∈ leafCharsN r
        · -- a in the left subtree, b in the right
          obtain ⟨sa, hsa, hsa0, _⟩ := hget a ha
          obtain ⟨sb, hsb, _, hsb1⟩ := hget b hb
          obtain ⟨sa', rfl⟩ := hsa0 hal
          obtain ⟨sb', rfl⟩ := hsb1 hbr
          rw [hga] at hsa
          rw [hgb] at hsb
          injection hsa with hsa
          injection hsb with hsb
          subst hsa; subst hsb
          rw [List.append_assoc] at ht
          have := List.append_cancel_left ht
          simp at this
        · have hbl : b ∈ leafCharsN l := by
            rcases List.mem_append.mp hb with h | h
            · exact h
            · exact absurd h hbr
          have hua := helper_untouched r hr (code ++ ['1'])
            (makeCodesHelper (some l) (code ++ ['0']) st) a har
          have hub := helper_untouched r hr (code ++ ['1'])
            (makeCodesHelper (some l) (code ++ ['0']) st) b hbr
          rw [hua] at hga
          rw [hub] at hgb
          exact (ihl (code ++ ['0']) st hndl).2 a b ca cb hal hbl hab hga hgb ⟨t, ht⟩

/-! ### The root produced by the tree-building stages -/

theorem makeHeap_length :
    ∀ (fd : List (Char × Nat)) (h0 : List Node),
      (makeHeap h0 fd).length = h0.length + fd.length := by
  intro fd
  induction fd with
  | nil => intro h0; simp [makeHeap]
  | cons cf rest ih =>
    intro h0
    have step : makeHeap h0 (cf :: rest)
        = makeHeap (heappush h0 (Node.mk (some cf.1) cf.2 none none)) rest := rfl
    rw [step, ih, heappush_length]
    simp only [List.length_cons]
    omega

theorem makeFrequencyDict_ne_nil (text : List Char) (hne : text ≠ []) :
    makeFrequencyDict text ≠ [] := by
  obtain ⟨c, rest, rfl⟩ : ∃ c rest, text = c :: rest := by
    cases text with
    | nil => exact absurd rfl hne
    | cons c rest => exact ⟨c, rest, rfl⟩
  intro he
  have := makeFrequencyDict_get_of_mem (c :: rest) c (List.mem_cons_self _ _)
  rw [he] at this
  simp [dictGet] at this

theorem root_facts (text : List Char) (hne : text ≠ []) :
    ∃ root : Node,
      mergeNodes (makeHeap [] (makeFrequencyDict text)) = [root] ∧
      WFTree root ∧
      List.Perm (leafCharsN root) ((makeFrequencyDict text).map Prod.fst) ∧
      (leafCharsN root).Nodup ∧
      (∀ c ∈ text, c ∈ leafCharsN root) := by
  have hfd := makeFrequencyDict_ne_nil text hne
  have hh0len : (makeHeap [] (makeFrequencyDict text)).length
      = (makeFrequencyDict text).length := by
    rw [makeHeap_length]; simp
  have hh0ne : makeHeap [] (makeFrequencyDict text) ≠ [] := by
    intro he
    rw [he] at hh0len
    exact hfd (List.length_eq_zero.mp hh0len.symm)
  have hmlen : (mergeNodes (makeHeap [] (makeFrequencyDict text))).length = 1 :=
    mergeNodes_length _ hh0ne
  set hm := mergeNodes (makeHeap [] (makeFrequencyDict text)) with hhm
  have hm1 : hm = [getN hm 0] := length_one_eq hm hmlen
  have hchars : heapChars hm = leafCharsN (getN hm 0) := by
    conv_lhs => rw [hm1]
    simp [heapChars]
  have hperm : List.Perm (leafCharsN (getN hm 0))
      ((makeFrequencyDict text).map Prod.fst) := by
    have hp1 : List.Perm (heapChars hm)
        (heapChars (makeHeap [] (makeFrequencyDict text))) := mergeNodes_chars _
    have hp2 := makeHeap_chars (makeFrequencyDict text) []
    rw [hchars] at hp1
    refine hp1.trans (hp2.trans ?_)
    simp [heapChars]
  refine ⟨getN hm 0, hm1, ?_, hperm, ?_, ?_⟩
  · refine mergeNodes_WF (makeHeap [] (makeFrequencyDict text))
      (makeHeap_WF (makeFrequencyDict text) [] (by simp)) (getN hm 0) ?_
    rw [← hhm, hm1]
    exact List.mem_singleton.mpr rfl
  · exact (makeFrequencyDict_keys_nodup text).perm hperm.symm
  · intro c hc
    have hkeys : c ∈ (makeFrequencyDict text).map Prod.fst :=
      (makeFrequencyDict_mem_keys_iff text c).mpr hc
    exact hperm.symm.mem_iff.mp hkeys

theorem heappop_singleton (x : Node) : heappop [x] = some (x, []) := rfl

theorem makeCodes_empty (codes : List (Char × List Char))
    (rev : List (List Char × Char)) (p : Nat) :
    makeCodes (EncoderState.mk [] codes rev p) = none := rfl

theorem makeCodes_singleton (root : Node) (codes : List (Char × List Char))
    (rev : List (List Char × Char)) (p : Nat) :
    makeCodes (EncoderState.mk [root] codes rev p)
      = some (EncoderState.mk []
          (makeCodesHelper (some root) [] (codes, rev)).1
          (makeCodesHelper (some root) [] (codes, rev)).2 p) := rfl

/-! ### Claim C1 -/

/-- Claim C1: for every non-empty input text, the code table produced by the
tree-building and code-assignment stages (from a fresh encoder) is
prefix-free: the codes of two distinct symbols present in the table are never
prefixes of one another. -/
theorem codeTable_prefixFree (text : List Char) (hne : text ≠ [])
    (st' : EncoderState)
    (h : makeCodes (EncoderState.mk
        (mergeNodes (makeHeap [] (makeFrequencyDict text))) [] [] 0) = some st') :
    ∀ a b ca cb, a ≠ b → dictGet st'.codes a = some ca →
      dictGet st'.codes b = some cb → ¬ ca <+: cb := by
  obtain ⟨root, hmerge, hwf, _, hnd, _⟩ := root_facts text hne
  rw [hmerge, makeCodes_singleton] at h
  injection h with h
  subst h
  intro a b ca cb hab hga hgb
  simp only at hga hgb
  have hmem : ∀ (c : Char) (cc : List Char),
      dictGet (makeCodesHelper (some root) [] ([], [])).1 c = some cc →
      c ∈ leafCharsN root := by
    intro c cc hg
    by_contra hcn
    rw [helper_untouched root hwf [] ([], []) c hcn] at hg
    simp [dictGet] at hg
  have ha := hmem a ca hga
  have hb := hmem b cb hgb
  exact (helper_main root hwf [] ([], []) hnd).2 a b ca cb ha hb hab hga hgb

theorem codeTable_prefixFree_witness : ¬ (['0'] <+: ['1']) :=
  codeTable_prefixFree ['a', 'b'] (by simp) (EncoderState.mk []
    [('a', ['0']), ('b', ['1'])] [(['0'], 'a'), (['1'], 'b')] 0) rfl
    'a' 'b' ['0'] ['1'] (by decide) rfl rfl

/-! ### The compress pipeline as a function of the input text -/

theorem compressFrom_eq (st : EncoderState) (text : List Char) :
    compressFrom st text =
      match makeCodes (EncoderState.mk
          (mergeNodes (makeHeap st.heap (makeFrequencyDict text)))
          st.codes st.reverseCodes st.padding) with
      | none => none
      | some st3 =>
        match getEncodedText st3.codes text with
        | none => none
        | some enc =>
          some (EncoderState.mk st3.heap st3.codes st3.reverseCodes
              (padEncodedText enc).2,
            (padEncodedText enc).2 :: toBytes (padEncodedText enc).1) := by
  cases st
  rfl

theorem compressFrom_of_nonempty (st : EncoderState) (hheap : st.heap = [])
    (text : List Char) (_hne : text ≠ []) (root : Node)
    (hmerge : mergeNodes (makeHeap [] (makeFrequencyDict text)) = [root]) :
    compressFrom st text =
      match getEncodedText
          (makeCodesHelper (some root) [] (st.codes, st.reverseCodes)).1 text with
      | none => none
      | some enc =>
        some (EncoderState.mk []
            (makeCodesHelper (some root) [] (st.codes, st.reverseCodes)).1
            (makeCodesHelper (some root) [] (st.codes, st.reverseCodes)).2
            (padEncodedText enc).2,
          (padEncodedText enc).2 :: toBytes (padEncodedText enc).1) := by
  obtain ⟨hp, cs, rv, pd⟩ := st
  simp only at hheap
  subst hheap
  rw [compressFrom_eq]
  simp only
  rw [hmerge, makeCodes_singleton]

theorem compressFrom_output_indep (text : List Char) (st1 st2 : EncoderState)
    (h1 : st1.heap = []) (h2 : st2.heap = []) :
    (compressFrom st1 text).map Prod.snd = (compressFrom st2 text).map Prod.snd := by
  by_cases hne : text = []
  · subst hne
    obtain ⟨hp1, c1, r1, p1⟩ := st1
    obtain ⟨hp2, c2, r2, p2⟩ := st2
    simp only at h1 h2
    subst h1
    subst h2
    rfl
  · obtain ⟨root, hmerge, hwf, hperm, hnd, hcov⟩ := root_facts text hne
    rw [compressFrom_of_nonempty st1 h1 text hne root hmerge,
        compressFrom_of_nonempty st2 h2 text hne root hmerge]
    have hagree : ∀ c ∈ text,
        dictGet (makeCodesHelper (some root) [] (st1.codes, st1.reverseCodes)).1 c
          = dictGet (makeCodesHelper (some root) [] (st2.codes, st2.reverseCodes)).1 c :=
      fun c hc => helper_state_indep root hwf [] _ _ c (hcov c hc)
    rw [getEncodedText_congr _ _ text hagree]
    cases getEncodedText
        (makeCodesHelper (some root) [] (st2.codes, st2.reverseCodes)).1 text with
    | none => rfl
    | some enc => rfl

/-! ### Claims C8 and C9 -/

/-- Claim C8: the encoding pipeline is deterministic.  In this embedding all
stages (including the `heapq` algorithms with their fixed tie-handling and
insertion-ordered dicts) are pure functions, so two runs on the same input
from fresh encoders agree exactly; more strongly, the output bytes depend
only on the input text for any two encoder states whose heaps are empty (the
contents of the codes/reverse-codes dicts and the stored padding are
irrelevant). -/
theorem pipeline_deterministic (text : List Char) :
    compressFrom initState text = compressFrom initState text ∧
    ∀ st1 st2 : EncoderState, st1.heap = [] → st2.heap = [] →
      (compressFrom st1 text).map Prod.snd = (compressFrom st2 text).map Prod.snd :=
  ⟨rfl, fun st1 st2 h1 h2 => compressFrom_output_indep text st1 st2 h1 h2⟩

theorem pipeline_deterministic_witness :
    (compressFrom initState ['a']).map Prod.snd
      = (compressFrom (EncoderState.mk [] [('x', ['1'])] [] 3) ['a']).map Prod.snd :=
  (pipeline_deterministic ['a']).2 initState (EncoderState.mk [] [('x', ['1'])] [] 3)
    rfl rfl

/-- Claim C9, amended: after a successful `compress` the encoder's heap is
empty, and although the codes/reverse-codes dictionaries persist across calls
on the same encoder (see `statePersists_counterexample`), a second compress on
the same encoder writes byte-for-byte the same output as a first compress on a
fresh encoder: no stale entry ever influences a later call's output. -/
theorem secondCompress_outputEqFresh (text1 : List Char)
    (r1 : EncoderState × List Nat)
    (h : compressFrom initState text1 = some r1) :
    r1.1.heap = [] ∧
    ∀ text2 : List Char,
      (compressFrom r1.1 text2).map Prod.snd
        = (compressFrom initState text2).map Prod.snd := by
  have hne : text1 ≠ [] := by
    intro he
    subst he
    rw [show compressFrom initState [] = none from rfl] at h
    exact Option.noConfusion h
  obtain ⟨root, hmerge, _, _, _, _⟩ := root_facts text1 hne
  rw [compressFrom_of_nonempty initState rfl text1 hne root hmerge] at h
  have hheap : r1.1.heap = [] := by
    cases hE : getEncodedText
        (makeCodesHelper (some root) [] (initState.codes, initState.reverseCodes)).1
        text1 with
    | none => rw [hE] at h; exact Option.noConfusion h
    | some enc =>
      rw [hE] at h
      simp only at h
      injection h with h
      rw [← h]
  exact ⟨hheap, fun text2 => compressFrom_output_indep text2 r1.1 initState hheap rfl⟩

theorem secondCompress_outputEqFresh_witness :
    (EncoderState.mk [] [('a', [])] [([], 'a')] 8, ([8, 0] : List Nat)).1.heap = [] ∧
    (compressFrom (EncoderState.mk [] [('a', [])] [([], 'a')] 8, ([8, 0] : List Nat)).1
        ['b']).map Prod.snd
      = (compressFrom initState ['b']).map Prod.snd :=
  ⟨(secondCompress_outputEqFresh ['a']
      (EncoderState.mk [] [('a', [])] [([], 'a')] 8, ([8, 0] : List Nat)) rfl).1,
   (secondCompress_outputEqFresh ['a']
      (EncoderState.mk [] [('a', [])] [([], 'a')] 8, ([8, 0] : List Nat)) rfl).2 ['b']⟩

/-! ### The heap shape invariant through the heap operations -/

theorem heapInv_root_min (l : List Node) (h : heapInv l) :
    ∀ j, j < l.length → (getN l 0).freq ≤ (getN l j).freq := by
  intro j
  induction j using Nat.strong_induction_on with
  | _ j ih =>
    intro hj
    cases Nat.eq_zero_or_pos j with
    | inl h0 => subst h0; exact Nat.le_refl _
    | inr hpos =>
      have hpar : (j - 1) / 2 < j := by omega
      exact Nat.le_trans (ih ((j - 1) / 2) hpar (by omega)) (h j hpos hj)

theorem siftdownLoop_heapInv (item : Node) :
    ∀ (pos : Nat) (l : List Node), pos < l.length → sdInv l pos item →
      heapInv (siftdownLoop l 0 pos item) := by
  intro pos
  induction pos using Nat.strong_induction_on with
  | _ pos ih =>
    intro l hpos hinv
    obtain ⟨h1, h2⟩ := hinv
    have f_pos : getN (l.set pos item) pos = item := getN_set_self l pos item hpos
    have f_other : ∀ k, k ≠ pos → getN (l.set pos item) k = getN l k :=
      fun k hk => getN_set_ne l pos k item (Ne.symm hk)
    rw [siftdownLoop_eq]
    by_cases h : 0 < pos
    · rw [if_pos h]
      have hpplt : (pos - 1) / 2 < pos := by omega
      by_cases hlt : item.freq < (getN l ((pos - 1) / 2)).freq
      · rw [if_pos hlt]
        have e_pp : getN ((l.set pos (getN l ((pos - 1) / 2))).set ((pos - 1) / 2) item)
            ((pos - 1) / 2) = item :=
          getN_set_self _ _ _ (by simp only [List.length_set]; omega)
        have e_pos : getN ((l.set pos (getN l ((pos - 1) / 2))).set ((pos - 1) / 2) item)
            pos = getN l ((pos - 1) / 2) := by
          rw [getN_set_ne _ _ _ _ (by omega)]
          exact getN_set_self l pos _ hpos
        have e_other : ∀ k, k ≠ (pos - 1) / 2 → k ≠ pos →
            getN ((l.set pos (getN l ((pos - 1) / 2))).set ((pos - 1) / 2) item) k
              = getN l k := by
          intro k hk1 hk2
          rw [getN_set_ne _ _ _ _ (Ne.symm hk1), getN_set_ne _ _ _ _ (Ne.symm hk2)]
        have g_pos : getN (l.set pos (getN l ((pos - 1) / 2))) pos
            = getN l ((pos - 1) / 2) := getN_set_self l pos _ hpos
        have g_other : ∀ k, k ≠ pos →
            getN (l.set pos (getN l ((pos - 1) / 2))) k = getN l k :=
          fun k hk => getN_set_ne l pos k _ (Ne.symm hk)
        refine ih ((pos - 1) / 2) (by omega) _
          (by simp only [List.length_set]; omega) ⟨?_, ?_⟩
        · intro i hi0 hilen hine
          simp only [List.length_set] at hilen
          by_cases hipos : i = pos
          · rw [hipos, e_pos]
            have : (pos - 1) / 2 ≠ pos := by omega
            rw [e_pp]
            omega
          · by_cases hpari : (i - 1) / 2 = pos
            · rw [hpari, e_pos, e_other i hine hipos]
              exact h2 i hilen hpari h
            · by_cases hparpp : (i - 1) / 2 = (pos - 1) / 2
              · rw [hparpp, e_pp, e_other i hine hipos]
                have hold := h1 i hi0 hilen hipos
                rw [f_other _ hpari, f_other i hipos] at hold
                rw [hparpp] at hold
                omega
              · rw [e_other _ hparpp hpari, e_other i hine hipos]
                have hold := h1 i hi0 hilen hipos
                rw [f_other _ hpari, f_other i hipos] at hold
                exact hold
        · intro c hclen hcpar hpp0
          simp only [List.length_set] at hclen
          have hc0 : 0 < c := by omega
          have hgpne : ((pos - 1) / 2 - 1) / 2 ≠ pos := by omega
          have hstep1 : (getN l (((pos - 1) / 2 - 1) / 2)).freq
              ≤ (getN l ((pos - 1) / 2)).freq := by
            have hold := h1 ((pos - 1) / 2) hpp0 (by omega) (by omega)
            rwa [f_other _ hgpne, f_other _ (by omega)] at hold
          rw [g_other _ hgpne]
          by_cases hcpos : c = pos
          · rw [hcpos, g_pos]
            exact hstep1
          · rw [g_other c hcpos]
            have hstep2 : (getN l ((pos - 1) / 2)).freq ≤ (getN l c).freq := by
              have hold := h1 c hc0 hclen hcpos
              rwa [hcpar, f_other _ (by omega), f_other c hcpos] at hold
            omega
      · rw [if_neg hlt]
        intro i hi0 hilen
        simp only [List.length_set] at hilen
        by_cases hipos : i = pos
        · rw [hipos, f_pos, f_other _ (by omega)]
          omega
        · exact h1 i hi0 hilen hipos
    · rw [if_neg h]
      intro i hi0 hilen
      simp only [List.length_set] at hilen
      exact h1 i hi0 hilen (by omega)

theorem heappush_heapInv (l : List Node) (x : Node) (h : heapInv l) :
    heapInv (heappush l x) := by
  rw [heappush]
  refine siftdownLoop_heapInv x l.length (l ++ [x]) (by simp) ⟨?_, ?_⟩
  · intro i hi0 hilen hine
    have hset : (l ++ [x]).set l.length x = l ++ [x] := by
      have := set_getN_self (l ++ [x]) l.length
      rw [getN_snoc_self] at this
      exact this
    rw [hset]
    simp only [List.length_append, List.length_singleton] at hilen
    have hi : i < l.length := by omega
    have hp : (i - 1) / 2 < l.length := by omega
    rw [getN_append_left _ _ _ hp, getN_append_left _ _ _ hi]
    exact h i hi0 hi
  · intro c hclen hcpar hpos0
    simp only [List.length_append, List.length_singleton] at hclen
    omega

theorem suInv_step (l : List Node) (pos cp : Nat)
    (hlen : cp < l.length) (hposlt : pos < cp) (hparcp : (cp - 1) / 2 = pos)
    (hmin : ∀ s, (s - 1) / 2 = pos → 0 < s → s < l.length →
      (getN l cp).freq ≤ (getN l s).freq)
    (hinv : suInv l pos) : suInv (l.set pos (getN l cp)) cp := by
  obtain ⟨h1, h2⟩ := hinv
  have g_pos : getN (l.set pos (getN l cp)) pos = getN l cp :=
    getN_set_self l pos _ (by omega)
  have g_other : ∀ k, k ≠ pos → getN (l.set pos (getN l cp)) k = getN l k :=
    fun k hk => getN_set_ne l pos k _ (Ne.symm hk)
  constructor
  · intro i hi0 hilen hine hpari
    simp only [List.length_set] at hilen
    by_cases hipos : i = pos
    · rw [hipos, g_pos]
      have hpos0 : 0 < pos := by omega
      rw [g_other _ (by omega)]
      exact h2 cp hlen hparcp hpos0
    · by_cases hpari2 : (i - 1) / 2 = pos
      · rw [hpari2, g_pos, g_other i hipos]
        exact hmin i hpari2 hi0 hilen
      · rw [g_other _ hpari2, g_other i hipos]
        exact h1 i hi0 hilen hipos hpari2
  · intro c hclen hcpar _
    simp only [List.length_set] at hclen
    have hcge : 2 * cp + 1 ≤ c := by omega
    rw [show (cp - 1) / 2 = pos from hparcp]
    rw [g_pos, g_other c (by omega)]
    have := h1 c (by omega) hclen (by omega) (by omega)
    rwa [hcpar] at this

theorem siftupLoop_suInv :
    ∀ (k : Nat) (l : List Node) (pos endpos : Nat), endpos - pos ≤ k →
      endpos = l.length → pos < endpos → suInv l pos →
      suInv (siftupLoop l pos endpos).1 (siftupLoop l pos endpos).2 := by
  intro k
  induction k with
  | zero =>
    intro l pos endpos hk hend hpos hinv
    rw [siftupLoop_eq]
    rw [if_neg (by omega : ¬ 2 * pos + 1 < endpos)]
    exact hinv
  | succ k ih =>
    intro l pos endpos hk hend hpos hinv
    rw [siftupLoop_eq]
    by_cases h : 2 * pos + 1 < endpos
    · rw [if_pos h]
      by_cases hc : 2 * pos + 2 < endpos ∧
          ¬ (getN l (2 * pos + 1)).freq < (getN l (2 * pos + 2)).freq
      · rw [if_pos hc]
        refine ih _ _ _ (by omega) (by simp [hend]) (by omega) ?_
        refine suInv_step l pos (2 * pos + 2) (by omega) (by omega) (by omega)
          ?_ hinv
        intro s hs hs0 hslen
        have : s = 2 * pos + 1 ∨ s = 2 * pos + 2 := by omega
        rcases this with rfl | rfl
        · omega
        · exact Nat.le_refl _
      · rw [if_neg hc]
        refine ih _ _ _ (by omega) (by simp [hend]) (by omega) ?_
        refine suInv_step l pos (2 * pos + 1) (by omega) (by omega) (by omega)
          ?_ hinv
        intro s hs hs0 hslen
        have : s = 2 * pos + 1 ∨ s = 2 * pos + 2 := by omega
        rcases this with rfl | rfl
        · exact Nat.le_refl _
        · have h2lt : 2 * pos + 2 < endpos := by omega
          have := fun hnlt => hc ⟨h2lt, hnlt⟩
          omega
    · rw [if_neg h]
      exact hinv

theorem siftup_heapInv (l : List Node) (hlen : 0 < l.length) (hinv : suInv l 0) :
    heapInv (siftup l 0) := by
  show heapInv (siftdownLoop (siftupLoop l 0 l.length).1 0
    (siftupLoop l 0 l.length).2 (getN l 0))
  have hmain := siftupLoop_main (l.length - 0) l 0 l.length (by omega) rfl hlen
  have hsu := siftupLoop_suInv (l.length - 0) l 0 l.length (by omega) rfl hlen hinv
  have hlen1 : (siftupLoop l 0 l.length).1.length = l.length :=
    siftupLoop_length (l.length - 0) 0 l l.length (by omega)
  have hfp := hmain.2.2.1
  refine siftdownLoop_heapInv (getN l 0) (siftupLoop l 0 l.length).2
    (siftupLoop l 0 l.length).1 (by rw [hlen1]; exact hmain.1) ⟨?_, ?_⟩
  · intro i hi0 hilen hine
    rw [hlen1] at hilen
    have hpari : (i - 1) / 2 ≠ (siftupLoop l 0 l.length).2 := by omega
    rw [getN_set_ne _ _ _ _ (Ne.symm hpari), getN_set_ne _ _ _ _ (Ne.symm hine)]
    exact hsu.1 i hi0 (by rw [hlen1]; exact hilen) hine hpari
  · intro c hclen hcpar hfp0
    rw [hlen1] at hclen
    omega

theorem heappop_heapInv (l : List Node) (n : Node) (l' : List Node)
    (hinv : heapInv l) (h : heappop l = some (n, l')) : heapInv l' := by
  have hne : l ≠ [] := by
    intro he
    rw [he] at h
    simp [heappop] at h
  obtain ⟨lastelt, hl⟩ : ∃ x, l.getLast? = some x := by
    cases hgl : l.getLast? with
    | none => exact absurd (List.getLast?_eq_none_iff.mp hgl) hne
    | some x => exact ⟨x, rfl⟩
  rw [heappop, hl] at h
  simp only at h
  split at h
  · rename_i hempty
    injection h with h1
    injection h1 with h1 h2
    subst h2
    intro i hi0 hilen
    rw [hempty] at hilen
    simp at hilen
  · rename_i hempty
    injection h with h1
    injection h1 with h1 h2
    subst h2
    have hdl : 0 < l.dropLast.length := List.length_pos.mpr hempty
    have hdll : l.dropLast.length = l.length - 1 := List.length_dropLast l
    refine siftup_heapInv _ (by simp only [List.length_set]; omega) ⟨?_, ?_⟩
    · intro i hi0 hilen hine hpari
      simp only [List.length_set] at hilen
      rw [getN_set_ne _ _ _ _ (Ne.symm hpari), getN_set_ne _ _ _ _ (Ne.symm hine)]
      rw [getN_dropLast _ _ (by omega), getN_dropLast _ _ (by omega)]
      exact hinv i hi0 (by omega)
    · intro c hclen hcpar hpos0
      omega

theorem heappop_min (l : List Node) (n : Node) (l' : List Node)
    (hinv : heapInv l) (h : heappop l = some (n, l')) :
    ∀ m ∈ l, n.freq ≤ m.freq := by
  have hne : l ≠ [] := by
    intro he
    rw [he] at h
    simp [heappop] at h
  obtain ⟨lastelt, hl⟩ : ∃ x, l.getLast? = some x := by
    cases hgl : l.getLast? with
    | none => exact absurd (List.getLast?_eq_none_iff.mp hgl) hne
    | some x => exact ⟨x, rfl⟩
  have hdrop : l.dropLast ++ [lastelt] = l :=
    List.dropLast_append_getLast? lastelt hl
  rw [heappop, hl] at h
  simp only at h
  split at h
  · rename_i hempty
    injection h with h1
    injection h1 with h1 h2
    subst h1
    intro m hm
    rw [← hdrop, hempty] at hm
    simp at hm
    rw [hm]
  · rename_i hempty
    injection h with h1
    injection h1 with h1 h2
    subst h1
    have hdl : 0 < l.dropLast.length := List.length_pos.mpr hempty
    have hdll : l.dropLast.length = l.length - 1 := List.length_dropLast l
    have hn : getN l.dropLast 0 = getN l 0 := getN_dropLast _ _ (by omega)
    rw [hn]
    intro m hm
    obtain ⟨j, hj, hgj⟩ := mem_getN l m hm
    rw [← hgj]
    exact heapInv_root_min l hinv j hj

theorem makeHeap_heapInv :
    ∀ (fd : List (Char × Nat)) (h0 : List Node), heapInv h0 →
      heapInv (makeHeap h0 fd) := by
  intro fd
  induction fd with
  | nil => intro h0 h; exact h
  | cons cf rest ih =>
    intro h0 h
    exact ih _ (heappush_heapInv h0 _ h)

/-! ### Claim C3 -/

/-- Claim C3: loading any non-empty frequency table produces a heap satisfying
the binary-heap invariant; `merge_nodes` then terminates with exactly one node
in the heap, and that root is a strictly binary tree in which every internal
node has exactly two children and carries the sum of their frequencies
(`WFTree`).  Moreover in every iteration on a heap with more than one node the
two pops both succeed and return nodes of minimal frequency (first pop minimal
in the heap, second pop minimal among the rest), and the loop continues on the
heap obtained by pushing the internal node built from them — first pop as left
child, second pop as right child — which again satisfies the heap invariant. -/
theorem mergeNodes_spec (fd : List (Char × Nat)) (hne : fd ≠ []) :
    heapInv (makeHeap [] fd) ∧
    (mergeNodes (makeHeap [] fd)).length = 1 ∧
    (∀ root ∈ mergeNodes (makeHeap [] fd), WFTree root) ∧
    (∀ hp : List Node, 1 < hp.length → heapInv hp →
      ∃ n1 r1 n2 r2, heappop hp = some (n1, r1) ∧ heappop r1 = some (n2, r2) ∧
        (∀ m ∈ hp, n1.freq ≤ m.freq) ∧ (∀ m ∈ r1, n2.freq ≤ m.freq) ∧
        heapInv (heappush r2 (Node.mk none (n1.freq + n2.freq) (some n1) (some n2))) ∧
        mergeNodes hp = mergeNodes
          (heappush r2 (Node.mk none (n1.freq + n2.freq) (some n1) (some n2)))) := by
  have hh0ne : makeHeap [] fd ≠ [] := by
    intro he
    have := makeHeap_length fd []
    rw [he] at this
    simp at this
    exact hne (List.length_eq_zero.mp this.symm)
  refine ⟨makeHeap_heapInv fd [] (by intro i hi0 hilen; simp at hilen), ?_, ?_, ?_⟩
  · exact mergeNodes_length _ hh0ne
  · exact mergeNodes_WF _ (makeHeap_WF fd [] (by simp))
  · intro hp hplen hpinv
    have hpne : hp ≠ [] := by
      intro he; rw [he] at hplen; simp at hplen
    obtain ⟨⟨n1, r1⟩, e1⟩ : ∃ p, heappop hp = some p := by
      cases hp' : heappop hp with
      | none => exact absurd (heappop_none_iff hp |>.mp hp') hpne
      | some p => exact ⟨p, rfl⟩
    have hr1len : r1.length + 1 = hp.length := heappop_length _ _ _ e1
    have hr1ne : r1 ≠ [] := by
      intro he; rw [he] at hr1len; simp at hr1len; omega
    obtain ⟨⟨n2, r2⟩, e2⟩ : ∃ p, heappop r1 = some p := by
      cases hp' : heappop r1 with
      | none => exact absurd (heappop_none_iff r1 |>.mp hp') hr1ne
      | some p => exact ⟨p, rfl⟩
    have hinv1 : heapInv r1 := heappop_heapInv hp n1 r1 hpinv e1
    have hinv2 : heapInv r2 := heappop_heapInv r1 n2 r2 hinv1 e2
    exact ⟨n1, r1, n2, r2, e1, e2, heappop_min hp n1 r1 hpinv e1,
      heappop_min r1 n2 r2 hinv1 e2, heappush_heapInv r2 _ hinv2,
      mergeNodes_step hp n1 n2 r1 r2 hplen e1 e2⟩

theorem mergeNodes_spec_witness :
    (mergeNodes (makeHeap [] [('a', 1), ('b', 2)])).length = 1 :=
  (mergeNodes_spec [('a', 1), ('b', 2)] (by simp)).2.1
